import Mathlib

/-!
Shallow embedding of `src/other/partition/hoare_block_butterfly.rs`.

Conventions used throughout this development:

* A Rust slice `v: &mut [T]` is modelled as a `List α`; in-place stores
  `ptr.add(i).write x` become `List.set v i x`, and loads `*ptr.add(i)`
  become `vget v i` (`List.getD` with the `Inhabited` default; every load
  on a verified path is in bounds, so the default never matters).
* A `MaybeUninit` stack buffer is modelled as a total function `Nat → _`
  whose initial contents are an arbitrary, universally quantified
  "garbage" function, so that theorems also cover executions that read
  uninitialized memory.  A `u8` cell can only hold values below 256, so
  garbage is stored modulo 256.
* The user comparison `is_less: &mut F` may abort (panic); it is modelled
  as `α → α → Option Bool`, `none` meaning the call aborts.  Abortion
  propagates; each embedded function returns the state the sequence has
  at the moment of the abort.
* `debug_assert!` is compiled out in optimized builds and is modelled as
  a no-op (this matters for the length-precondition claims).
-/

namespace Butterfly

/-- MAX_SMALL_PARTITION_LEN from the source. -/
def MAX_SMALL_PARTITION_LEN : Nat := 256

/-- BLOCK_PARTITION_BLOCK_SIZE from the source. -/
def BLOCK : Nat := 32

/-- SUB_BLOCK constant used by the offset-fill routines. -/
def SUB_BLOCK : Nat := 8

/-- Load `*arr_ptr.add(i)`. -/
def vget {α : Type} [Inhabited α] (v : List α) (i : Nat) : α :=
  v.getD i default

/-- Store into a stack buffer modelled as a total function. -/
def bufSet {β : Type} (f : Nat → β) (j : Nat) (x : β) : Nat → β :=
  fun q => if q = j then x else f q

/-!
The `cyclic_permutation_swap_loop!` macro.

With `n` the number of times `$continue_check` evaluates to true, the
macro executes exactly this store sequence (writing `v[a] ← v[b]` for
`copy_nonoverlapping(b, a, 1)`), where `L i`/`R i` are the positions the
`$next_left`/`$next_right` expressions produce at counter value `i`:

  tmp ← v[L 0]; v[L 0] ← v[R 0];
  v[R 0] ← v[L 1]; v[L 1] ← v[R 1];
  ...
  v[R (n-2)] ← v[L (n-1)]; v[L (n-1)] ← v[R (n-1)];
  v[R (n-1)] ← tmp

i.e. a sequential shift of values along the interleaved position path
`[L 0, R 0, L 1, R 1, ..., L (n-1), R (n-1)]` plus the final store of the
held temporary.  `chainCopy` performs the sequential shift, `pathRotate`
adds the temporary's final store, and the move count is the temporary
read plus `2*n - 1` chain stores plus the final store, `2*n + 1` total.
-/

/-- Sequential shift `v[p 0] ← v[p 1]; v[p 1] ← v[p 2]; ...` along a path. -/
def chainCopy {α : Type} [Inhabited α] : List α → List Nat → List α
  | v, a :: b :: rest => chainCopy (v.set a (vget v b)) (b :: rest)
  | v, _ => v

/-- The full cyclic relocation: shift along the path, then store the held
temporary (the original first value) into the last position. -/
def pathRotate {α : Type} [Inhabited α] (v : List α) (p : List Nat) : List α :=
  match p with
  | [] => v
  | p0 :: rest => (chainCopy v (p0 :: rest)).set ((p0 :: rest).getLast (by simp)) (vget v p0)

/-- Number of leading counter values `0, 1, 2, ...` for which the continue
check holds; the callers guarantee the check fails at some `i ≤ bound`. -/
def passedCount (check : Nat → Bool) : Nat → Nat → Nat
  | 0, _ => 0
  | fuel + 1, i => if check i then passedCount check fuel (i + 1) + 1 else 0

/-- Wrapper fixing the fuel; `bound + 1` steps reach any failure `≤ bound`. -/
def passedFrom0 (check : Nat → Bool) (bound : Nat) : Nat :=
  passedCount check (bound + 1) 0

/-- The interleaved position path `[L 0, R 0, L 1, R 1, ...]` the macro's
cursors enumerate over `n` passed checks (`2*n` positions). -/
def cyclePath (left right : Nat → Nat) (n : Nat) : List Nat :=
  (List.range (2 * n)).map (fun j => if j % 2 = 0 then left (j / 2) else right (j / 2))

/-- cyclic_permutation_swap_loop: returns the rewritten sequence and the
number of single-element copy operations performed (the temporary read,
the chain stores and the temporary's final store). -/
def cyclicPermutationSwapLoop {α : Type} [Inhabited α] (check : Nat → Bool)
    (left right : Nat → Nat) (bound : Nat) (v : List α) : List α × Nat :=
  let n := passedFrom0 check bound
  if n = 0 then (v, 0) else (pathRotate v (cyclePath left right n), 2 * n + 1)

/-!
small_partition_move_opt.

The scan loop (for `i in 0..len`) first decrements `lt_idx_ptr` (so it
points at `lt_base + (len - 1 - i)`), stores `i` at `ge_idx[ge_count]`
and at `lt_idx_ptr[ge_count]` (absolute position `(len - 1 - i) +
ge_count` from `lt_base`), evaluates `is_less`, and bumps `ge_count` when
the element is greater-or-equal.  After the scan `lt_idx_ptr` is
`lt_base + ge_count`.
-/

/-- Scan state of small_partition_move_opt: the two index buffers (as
total functions over the whole 256-byte stack storage) and `ge_count`. -/
structure MoveScanState where
  geBuf : Nat → Nat
  ltBuf : Nat → Nat
  geCount : Nat

/-- One iteration of the move_opt scan loop at index `i`. -/
def moveScanStep {α : Type} [Inhabited α] (v : List α) (pivot : α)
    (less : α → α → Option Bool) (len : Nat) (st : MoveScanState) (i : Nat) :
    Option MoveScanState :=
  let ge' := bufSet st.geBuf st.geCount i
  let lt' := bufSet st.ltBuf ((len - 1 - i) + st.geCount) i
  match less (vget v i) pivot with
  | none => none
  | some b => some ⟨ge', lt', st.geCount + (if b then 0 else 1)⟩

/-- The whole move_opt scan, starting from garbage-filled buffers. -/
def moveScan {α : Type} [Inhabited α] (g1 g2 : Nat → Nat) (v : List α) (pivot : α)
    (less : α → α → Option Bool) (len : Nat) : Option MoveScanState :=
  (List.range len).foldlM (moveScanStep v pivot less len)
    ⟨fun j => g1 j % 256, fun j => g2 j % 256, 0⟩

/-- small_partition_move_opt.  Returns `(some (lt_count, moves), v')` on a
normal return (`moves` counts the cyclic loop's single-element copies) and
`(none, v)` when `is_less` aborts — the scan phase does not write `v`, so
the abort state is the original sequence.  Oversized inputs take the
compiled-out `debug_assert!(false); return 0` path. -/
def smallPartitionMoveOpt {α : Type} [Inhabited α] (g1 g2 : Nat → Nat) (v : List α)
    (pivot : α) (less : α → α → Option Bool) : Option (Nat × Nat) × List α :=
  let len := v.length
  if MAX_SMALL_PARTITION_LEN ≤ len then (some (0, 0), v)
  else
    match moveScan g1 g2 v pivot less len with
    | none => (none, v)
    | some st =>
      let ltCount := len - st.geCount
      let check := fun i => decide (i < ltCount) && decide (st.geBuf i < ltCount)
      let res := cyclicPermutationSwapLoop check (fun i => st.geBuf i)
        (fun i => st.ltBuf (st.geCount + i)) ltCount v
      (some (ltCount, res.2), res.1)

/-!
small_partition_int_opt.

The loop body at index `i` first decrements `ge_out_ptr` (to scratch
index `len - 1 - i`), evaluates `is_less`, then stores the element: for
types at most one machine word a double store to `scratch[lt_count]` and
`scratch[(len - 1 - i) + lt_count]`, otherwise a single store to
whichever of the two positions the comparison selects; finally
`lt_count` is bumped for a less-than element.  The source runs this body
for `i = 0, 1, ..., len-1` through a manually two-way unrolled loop (the
`while i < end` pair loop plus the `if i != len` tail), mirrored here.
-/

/-- Loop state of small_partition_int_opt: the scratch buffer (a total
function over the 256-element stack storage, garbage initialized) and
`lt_count`. -/
structure IntScanState (α : Type) where
  scratch : Nat → α
  ltCount : Nat

/-- One `loop_body!` expansion of small_partition_int_opt at index `i`;
`doubleStore` is the compile-time `size_of::<T>() <= size_of::<usize>()`
branch selector. -/
def intBody {α : Type} [Inhabited α] (doubleStore : Bool) (len : Nat) (v : List α)
    (pivot : α) (less : α → α → Option Bool) (st : IntScanState α) (i : Nat) :
    Option (IntScanState α) :=
  let geOut := len - 1 - i
  match less (vget v i) pivot with
  | none => none
  | some isLessThanPivot =>
    let scr :=
      if doubleStore then
        bufSet (bufSet st.scratch st.ltCount (vget v i)) (geOut + st.ltCount) (vget v i)
      else
        bufSet st.scratch ((if isLessThanPivot then 0 else geOut) + st.ltCount) (vget v i)
    some ⟨scr, st.ltCount + (if isLessThanPivot then 1 else 0)⟩

/-- The `while i < end` two-way unrolled pair loop; returns the state and
the final value of `i`. -/
def intPairs {α : Type} [Inhabited α] (doubleStore : Bool) (len : Nat) (v : List α)
    (pivot : α) (less : α → α → Option Bool) (endv : Nat) (i : Nat)
    (st : IntScanState α) : Option (IntScanState α × Nat) :=
  if _h : i < endv then
    match intBody doubleStore len v pivot less st i with
    | none => none
    | some st1 =>
      match intBody doubleStore len v pivot less st1 (i + 1) with
      | none => none
      | some st2 => intPairs doubleStore len v pivot less endv (i + 2) st2
  else some (st, i)
termination_by endv - i

/-- small_partition_int_opt.  On a normal return the scratch contents are
copied back over the whole range (`(some lt_count, copied-back list)`);
when `is_less` aborts the sequence is untouched because the loop only
ever wrote the scratch buffer.  Oversized inputs take the compiled-out
`debug_assert!(false); return 0` path. -/
def smallPartitionIntOpt {α : Type} [Inhabited α] (g : Nat → α) (doubleStore : Bool)
    (v : List α) (pivot : α) (less : α → α → Option Bool) : Option Nat × List α :=
  let len := v.length
  if MAX_SMALL_PARTITION_LEN ≤ len then (some 0, v)
  else
    match intPairs doubleStore len v pivot less (len - 1) 0 ⟨g, 0⟩ with
    | none => (none, v)
    | some (st, i) =>
      match (if i ≠ len then intBody doubleStore len v pivot less st i else some st) with
      | none => (none, v)
      | some stf => (some stf.ltCount, (List.range len).map stf.scratch)

/-!
fill_offset_block_up / fill_offset_block_down.

Each routine fills one 32-byte offset buffer through two pointers, one
(`up_ptr`, starting at the buffer's midpoint) moving up and one
(`down_ptr`, starting just below the midpoint) moving down; a store
`*ptr = off` followed by a conditional pointer bump keeps `off` exactly
when the element is selected (an unselected store is overwritten by the
next one or lies outside the returned `[down_ptr+1, up_ptr)` range).
This is modelled by an append-on-select list for the up pointer and a
prepend-on-select list for the down pointer; the populated range is the
down list followed by the up list.  The predicate call order of the
source (up element then down element, per inner iteration) is kept.
-/

/-- One inner iteration of fill_offset_block_up: element `base + (i + 16)`
for the up pointer, then element `base + (15 - i)` for the down pointer. -/
def fillUpStep {α : Type} [Inhabited α] (v : List α) (base : Nat)
    (isSwapElem : α → Option Bool) (st : List Nat × List Nat) (i : Nat) :
    Option (List Nat × List Nat) := do
  let upI := i + BLOCK / 2
  let b1 ← isSwapElem (vget v (base + upI))
  let up' := if b1 then st.1 ++ [upI] else st.1
  let downI := BLOCK / 2 - 1 - i
  let b2 ← isSwapElem (vget v (base + downI))
  let down' := if b2 then downI :: st.2 else st.2
  pure (up', down')

/-- fill_offset_block_up: the populated offset range, low to high. -/
def fillOffsetBlockUp {α : Type} [Inhabited α] (v : List α) (base : Nat)
    (isSwapElem : α → Option Bool) : Option (List Nat) := do
  let st ← (List.range (BLOCK / 2)).foldlM (fillUpStep v base isSwapElem) ([], [])
  pure (st.2 ++ st.1)

/-- One inner iteration of fill_offset_block_down inside sub-block `sb`
(a multiple of 8): element `base + sb + (3 - i)` for the up pointer, then
element `base + sb + (4 + i)` for the down pointer. -/
def fillDownStep {α : Type} [Inhabited α] (v : List α) (base : Nat)
    (isSwapElem : α → Option Bool) (sb : Nat) (st : List Nat × List Nat) (i : Nat) :
    Option (List Nat × List Nat) := do
  let upI := sb + (SUB_BLOCK / 2 - 1 - i)
  let b1 ← isSwapElem (vget v (base + upI))
  let up' := if b1 then st.1 ++ [upI] else st.1
  let downI := sb + (SUB_BLOCK / 2 + i)
  let b2 ← isSwapElem (vget v (base + downI))
  let down' := if b2 then downI :: st.2 else st.2
  pure (up', down')

/-- fill_offset_block_down: sub-blocks are visited high to low
(`for s_i in (0..BLOCK/SUB_BLOCK).rev()`). -/
def fillOffsetBlockDown {α : Type} [Inhabited α] (v : List α) (base : Nat)
    (isSwapElem : α → Option Bool) : Option (List Nat) := do
  let st ← ((List.range (BLOCK / SUB_BLOCK)).reverse).foldlM
    (fun st si =>
      (List.range (SUB_BLOCK / 2)).foldlM (fillDownStep v base isSwapElem (si * SUB_BLOCK)) st)
    ([], [])
  pure (st.2 ++ st.1)

/-!
block_partition.

The loop state is the sequence, the two block cursors `l`/`r` (indices of
`l_ptr`/`r_ptr` into the sequence) and the two offset buffers.  A buffer
with a start and an end pointer into fixed storage, refilled from its
base exactly when `start == end`, is modelled as the list of pending
offsets `[start, end)`, consumed from the front.
-/

/-- block_partition loop state. -/
structure BlockState (α : Type) where
  v : List α
  l : Nat
  r : Nat
  lbuf : List Nat
  rbuf : List Nat

/-- Result of running the block loop. -/
inductive BlockLoopOut (α : Type) where
  | abortAt (v : List α)
  | fuelOut
  | done (st : BlockState α)

/-- One iteration of the block_partition main loop: refill whichever
offset buffer is exhausted (left first, collecting greater-or-equal
elements; then right, collecting less-than elements), exchange
`min`-many pairs through the cyclic permutation loop, and advance each
cursor by a full block exactly when its buffer is consumed. -/
def blockIter {α : Type} [Inhabited α] (pivot : α) (less : α → α → Option Bool)
    (st : BlockState α) : Option (BlockState α) := do
  let lbuf ←
    if st.lbuf.isEmpty then
      fillOffsetBlockUp st.v st.l (fun elem => do pure (!(← less elem pivot)))
    else pure st.lbuf
  let rbuf ←
    if st.rbuf.isEmpty then
      fillOffsetBlockDown st.v st.r (fun elem => less elem pivot)
    else pure st.rbuf
  let swapCount := min lbuf.length rbuf.length
  let swapped := cyclicPermutationSwapLoop (fun i => decide (i < swapCount))
    (fun i => st.l + lbuf.getD i 0) (fun i => st.r + rbuf.getD i 0) swapCount st.v
  let lbuf2 := lbuf.drop swapCount
  let rbuf2 := rbuf.drop swapCount
  pure { v := swapped.1
         l := st.l + (if lbuf2.isEmpty then BLOCK else 0)
         r := st.r - (if rbuf2.isEmpty then BLOCK else 0)
         lbuf := lbuf2
         rbuf := rbuf2 }

/-- The `while l_ptr.add(BLOCK) <= r_ptr` loop, with explicit iteration
fuel (the gap between the cursors shrinks by at least a block per
iteration, so any fuel of at least `gap / BLOCK + 1` suffices; the
callers pass the sequence length). -/
def blockLoopGo {α : Type} [Inhabited α] (pivot : α) (less : α → α → Option Bool) :
    Nat → BlockState α → BlockLoopOut α
  | fuel, st =>
    if st.l + BLOCK ≤ st.r then
      match fuel with
      | 0 => .fuelOut
      | fuel' + 1 =>
        match blockIter pivot less st with
        | none => .abortAt st.v
        | some st' => blockLoopGo pivot less fuel' st'
    else .done st

/-- Result of block_partition: either the abort state of the sequence, or
the rewritten sequence together with the residual sub-range `[lo, hi)`
(the returned `&mut [T]` between `l_adjusted_ptr` and `r_end_ptr`).
`fuelOut` is unreachable and proved so below. -/
inductive BlockResult (α : Type) where
  | abortAt (v : List α)
  | fuelOut
  | ok (v : List α) (lo hi : Nat)

/-- block_partition: inputs shorter than MAX_SMALL_PARTITION_LEN are
returned whole as the residual. -/
def blockPartition {α : Type} [Inhabited α] (v : List α) (pivot : α)
    (less : α → α → Option Bool) : BlockResult α :=
  let len := v.length
  if len < MAX_SMALL_PARTITION_LEN then .ok v 0 len
  else
    match blockLoopGo pivot less len ⟨v, 0, len - BLOCK, [], []⟩ with
    | .abortAt w => .abortAt w
    | .fuelOut => .fuelOut
    | .done st => .ok st.v st.l (st.r + BLOCK)

/-!
partition, the dispatcher.  The per-type compile-time strategy choice of
`<T as Partition>::small_partition` (the `Freeze + Copy` + size
specialization) is modelled by the `useIntOpt` flag, and the size branch
inside small_partition_int_opt by `doubleStore`.
-/

/-- The dispatched Partition::small_partition call (count component
only; the move count of the move_opt strategy is dropped here like the
source drops it). -/
def smallPartition {α : Type} [Inhabited α] (useIntOpt doubleStore : Bool)
    (g1 g2 : Nat → Nat) (gInt : Nat → α) (v : List α) (pivot : α)
    (less : α → α → Option Bool) : Option Nat × List α :=
  if useIntOpt then smallPartitionIntOpt gInt doubleStore v pivot less
  else
    let res := smallPartitionMoveOpt g1 g2 v pivot less
    (res.1.map Prod.fst, res.2)

/-- partition: run block_partition, then finish the residual sub-range
with small_partition and add the residual's start offset
(`lt_block_count`) to its count.  On an abort the count is `none` and
the sequence component is the abort state. -/
def partitionRun {α : Type} [Inhabited α] (useIntOpt doubleStore : Bool)
    (g1 g2 : Nat → Nat) (gInt : Nat → α) (v : List α) (pivot : α)
    (less : α → α → Option Bool) : Option Nat × List α :=
  match blockPartition v pivot less with
  | .abortAt w => (none, w)
  | .fuelOut => (none, v)
  | .ok w lo hi =>
    let residual := (w.drop lo).take (hi - lo)
    let res := smallPartition useIntOpt doubleStore g1 g2 gInt residual pivot less
    (res.1.map (lo + ·), w.take lo ++ res.2 ++ w.drop hi)

/-!
Specification-side definitions used in theorem statements (not source
translations): pure comparisons and the index/element lists a partition
is measured against.
-/

/-- A pure, non-aborting comparison function wrapped for the embedding. -/
def pureLess {α : Type} (f : α → α → Bool) : α → α → Option Bool :=
  fun a b => some (f a b)

/-- Indices of elements of `v` that compare greater-or-equal to the pivot,
in ascending order. -/
def geIdxList {α : Type} [Inhabited α] (v : List α) (pivot : α) (f : α → α → Bool) :
    List Nat :=
  (List.range v.length).filter (fun i => !(f (vget v i) pivot))

/-- Indices of elements of `v` that compare less than the pivot, in
ascending order. -/
def ltIdxList {α : Type} [Inhabited α] (v : List α) (pivot : α) (f : α → α → Bool) :
    List Nat :=
  (List.range v.length).filter (fun i => f (vget v i) pivot)

/-- The number of greater-or-equal elements sitting inside the final
less-than region `[0, lt_count)` — the number of positions the
minimal-move strategy must relocate from the left side. -/
def misplacedGeCount {α : Type} [Inhabited α] (v : List α) (pivot : α)
    (f : α → α → Bool) : Nat :=
  ((List.range (ltIdxList v pivot f).length).filter
    (fun i => !(f (vget v i) pivot))).length

/-- The pure move_opt scan step (the no-abort reduct of `moveScanStep`). -/
def moveScanStepP {α : Type} [Inhabited α] (v : List α) (pivot : α) (f : α → α → Bool)
    (len : Nat) (st : MoveScanState) (i : Nat) : MoveScanState :=
  ⟨bufSet st.geBuf st.geCount i, bufSet st.ltBuf ((len - 1 - i) + st.geCount) i,
   st.geCount + (if f (vget v i) pivot then 0 else 1)⟩

/-- The pure int_opt loop body (the no-abort reduct of `intBody`). -/
def intBodyP {α : Type} [Inhabited α] (doubleStore : Bool) (len : Nat) (v : List α)
    (pivot : α) (f : α → α → Bool) (st : IntScanState α) (i : Nat) : IntScanState α :=
  let geOut := len - 1 - i
  let isLessThanPivot := f (vget v i) pivot
  ⟨if doubleStore then
      bufSet (bufSet st.scratch st.ltCount (vget v i)) (geOut + st.ltCount) (vget v i)
    else
      bufSet st.scratch ((if isLessThanPivot then 0 else geOut) + st.ltCount) (vget v i),
   st.ltCount + (if isLessThanPivot then 1 else 0)⟩

/-- The pure reduct of one fill iteration (`fillUpStep` / `fillDownStep`
for a non-aborting comparison), parametrised by the two index maps of the
pass: the up pointer appends `uf i`, the down pointer prepends `df i`,
each when its element is selected. -/
def fillStepP {α : Type} [Inhabited α] (v : List α) (base : Nat) (sel : α → Bool)
    (uf df : Nat → Nat) (st : List Nat × List Nat) (i : Nat) : List Nat × List Nat :=
  (if sel (vget v (base + uf i)) then st.1 ++ [uf i] else st.1,
   if sel (vget v (base + df i)) then df i :: st.2 else st.2)

/-- The order in which fill_offset_block_down emits the offsets of a full
block: the down-pointer halves of the four sub-blocks ascending, each
internally descending, then the up-pointer halves descending, each
internally descending — a permutation of `0..31`. -/
def downIdx : List Nat :=
  [7, 6, 5, 4, 15, 14, 13, 12, 23, 22, 21, 20, 31, 30, 29, 28,
   27, 26, 25, 24, 19, 18, 17, 16, 11, 10, 9, 8, 3, 2, 1, 0]

/-- partition called with the pivot stored on the heap beside the sequence:
the heap is a list, the sequence is its prefix `[0, n)` and the pivot is
read from heap slot `p` (the caller's guarantee `n ≤ p` says the pivot
does not alias the sequence).  The call returns the count and the whole
heap afterwards. -/
def partitionOnHeap {α : Type} [Inhabited α] (useIntOpt doubleStore : Bool)
    (g1 g2 : Nat → Nat) (gInt : Nat → α) (h : List α) (n p : Nat)
    (less : α → α → Option Bool) : Option Nat × List α :=
  let res := partitionRun useIntOpt doubleStore g1 g2 gInt (h.take n) (vget h p) less
  (res.1, res.2 ++ h.drop n)

/-- The block loop's invariant for a pure comparison `f`: the sequence
keeps its length, the right cursor's block stays inside the sequence, the
cursors stay ordered, pending offset buffers are duplicate-free in-block
offsets, everything left of `l` is already less-than, everything from
`r + BLOCK` on is already greater-or-equal, and a pending buffer holds
exactly the offsets of its block's still-unswapped elements. -/
def BInv {α : Type} [Inhabited α] (f : α → α → Bool) (pivot : α) (len : Nat)
    (st : BlockState α) : Prop :=
  st.v.length = len ∧
  st.r + BLOCK ≤ len ∧
  st.l ≤ st.r + BLOCK ∧
  (st.lbuf ≠ [] → st.l ≤ st.r) ∧
  (st.rbuf ≠ [] → st.l ≤ st.r) ∧
  st.lbuf.Nodup ∧
  st.rbuf.Nodup ∧
  (∀ o ∈ st.lbuf, o < BLOCK) ∧
  (∀ o ∈ st.rbuf, o < BLOCK) ∧
  (∀ q, q < st.l → f (vget st.v q) pivot = true) ∧
  (∀ q, st.r + BLOCK ≤ q → q < len → f (vget st.v q) pivot = false) ∧
  (st.lbuf ≠ [] → ∀ o, o < BLOCK →
    (f (vget st.v (st.l + o)) pivot = false ↔ o ∈ st.lbuf)) ∧
  (st.rbuf ≠ [] → ∀ o, o < BLOCK →
    (f (vget st.v (st.r + o)) pivot = true ↔ o ∈ st.rbuf))

/-! Basic lemmas about sequence loads and stores. -/

section Basics

variable {α : Type} [Inhabited α]

theorem vget_set_self {v : List α} {a : Nat} (x : α) (h : a < v.length) :
    vget (v.set a x) a = x := by
  induction v generalizing a with
  | nil => simp at h
  | cons hd tl ih =>
    cases a with
    | zero => simp [vget]
    | succ a => simpa [vget, List.set] using ih (Nat.lt_of_succ_lt_succ h)

theorem vget_set_other {v : List α} {a b : Nat} (x : α) (h : b ≠ a) :
    vget (v.set a x) b = vget v b := by
  induction v generalizing a b with
  | nil => simp [vget, List.set]
  | cons hd tl ih =>
    cases a with
    | zero =>
      cases b with
      | zero => exact absurd rfl h
      | succ b => simp [vget]
    | succ a =>
      cases b with
      | zero => simp [vget]
      | succ b => simpa [vget, List.set] using ih (fun hb => h (by simp [hb]))

theorem multiset_set {v : List α} {a : Nat} (x : α) (h : a < v.length) :
    ((v.set a x : List α) : Multiset α) + {vget v a} = (v : Multiset α) + {x} := by
  induction v generalizing a with
  | nil => simp at h
  | cons hd tl ih =>
    cases a with
    | zero =>
      show ((x :: tl : List α) : Multiset α) + {hd} = ((hd :: tl : List α) : Multiset α) + {x}
      rw [← Multiset.cons_coe, ← Multiset.cons_coe, Multiset.cons_add, Multiset.cons_add,
        add_comm ((tl : Multiset α)) ({hd} : Multiset α),
        add_comm ((tl : Multiset α)) ({x} : Multiset α),
        Multiset.singleton_add, Multiset.singleton_add, Multiset.cons_swap]
    | succ a =>
      have ihh := @ih a (Nat.lt_of_succ_lt_succ h)
      show ((hd :: tl.set a x : List α) : Multiset α) + {vget tl a} =
        ((hd :: tl : List α) : Multiset α) + {x}
      calc ((hd :: tl.set a x : List α) : Multiset α) + {vget tl a}
          = hd ::ₘ (((tl.set a x : List α) : Multiset α) + {vget tl a}) := by
            rw [← Multiset.cons_coe, Multiset.cons_add]
        _ = hd ::ₘ ((tl : Multiset α) + {x}) := by rw [ihh]
        _ = ((hd :: tl : List α) : Multiset α) + {x} := by
            rw [← Multiset.cons_coe, Multiset.cons_add]

theorem bufSet_self {β : Type} (f : Nat → β) (j : Nat) (x : β) : bufSet f j x j = x := by
  simp [bufSet]

theorem getD_concat_self {β : Type} [Inhabited β] {l : List β} {x : β} {d : β} :
    (l ++ [x]).getD l.length d = x := by
  induction l with
  | nil => rfl
  | cons a l ih =>
    simp only [List.cons_append, List.length_cons, List.getD_cons_succ]
    exact ih

theorem bufSet_other {β : Type} (f : Nat → β) (j : Nat) (x : β) (q : Nat) (h : q ≠ j) :
    bufSet f j x q = f q := by
  simp [bufSet, h]

theorem bufSet_hit {β : Type} (f : Nat → β) (j : Nat) (x : β) (q : Nat) (h : q = j) :
    bufSet f j x q = x := by
  rw [h, bufSet_self]

theorem bufSet2_hit {β : Type} (f : Nat → β) (a b q : Nat) (x : β) (h : q = a ∨ q = b) :
    bufSet (bufSet f a x) b x q = x := by
  by_cases hqb : q = b
  · rw [hqb, bufSet_self]
  · rcases h with rfl | rfl
    · rw [bufSet_other _ _ _ _ hqb, bufSet_self]
    · exact absurd rfl hqb

theorem vget_mem {v : List α} {j : Nat} (h : j < v.length) : vget v j ∈ v := by
  induction v generalizing j with
  | nil => simp at h
  | cons hd tl ih =>
    cases j with
    | zero => simp [vget]
    | succ j =>
      simp only [vget, List.getD_cons_succ]
      exact List.mem_cons_of_mem _ (ih (Nat.lt_of_succ_lt_succ h))

end Basics

/-! Lemmas about the cyclic relocation primitive. -/

section Cyclic

variable {α : Type} [Inhabited α]

theorem chainCopy_length (v : List α) (p : List Nat) :
    (chainCopy v p).length = v.length := by
  induction p generalizing v with
  | nil => simp [chainCopy]
  | cons a rest ih =>
    cases rest with
    | nil => simp [chainCopy]
    | cons b rest' => simpa [chainCopy] using ih (v := v.set a (vget v b))

theorem pathRotate_length (v : List α) (p : List Nat) :
    (pathRotate v p).length = v.length := by
  cases p with
  | nil => simp [pathRotate]
  | cons p0 rest => simp [pathRotate, chainCopy_length]

theorem chainCopy_multiset (v : List α) (p : List Nat) (hne : p ≠ [])
    (hb : ∀ q ∈ p, q < v.length) :
    ((chainCopy v p : List α) : Multiset α) + {vget v (p.getD 0 0)} =
      (v : Multiset α) + {vget (chainCopy v p) (p.getLast hne)} := by
  induction p generalizing v with
  | nil => exact absurd rfl hne
  | cons a rest ih =>
    cases rest with
    | nil => simp [chainCopy]
    | cons b rest' =>
      have ha : a < v.length := hb a (by simp)
      have hbv : b < v.length := hb b (by simp)
      have hw : vget (v.set a (vget v b)) b = vget v b := by
        by_cases hab : b = a
        · subst hab; exact vget_set_self _ hbv
        · exact vget_set_other _ hab
      have hb2 : ∀ q ∈ (b :: rest'), q < (v.set a (vget v b)).length := by
        intro q hq
        simpa using hb q (List.mem_cons_of_mem _ hq)
      have ihw := ih (v := v.set a (vget v b)) (by simp) hb2
      have hstep : ((v.set a (vget v b) : List α) : Multiset α) + {vget v a} =
          (v : Multiset α) + {vget v b} := multiset_set _ ha
      have hgl : ((a :: b :: rest').getLast hne) = ((b :: rest').getLast (by simp)) :=
        List.getLast_cons _
      simp only [chainCopy, List.getD_cons_zero, hgl]
      simp only [List.getD_cons_zero, hw] at ihw
      have key : ((chainCopy (v.set a (vget v b)) (b :: rest') : List α) : Multiset α)
          + {vget v a} + {vget v b} =
          ((v : Multiset α) + {vget (chainCopy (v.set a (vget v b)) (b :: rest'))
            ((b :: rest').getLast (by simp))}) + {vget v b} := by
        calc ((chainCopy (v.set a (vget v b)) (b :: rest') : List α) : Multiset α)
            + {vget v a} + {vget v b}
            = ((chainCopy (v.set a (vget v b)) (b :: rest') : List α) : Multiset α)
              + {vget v b} + {vget v a} := by rw [add_right_comm]
          _ = ((v.set a (vget v b) : List α) : Multiset α) +
                {vget (chainCopy (v.set a (vget v b)) (b :: rest'))
                  ((b :: rest').getLast (by simp))} + {vget v a} := by rw [ihw]
          _ = ((v.set a (vget v b) : List α) : Multiset α) + {vget v a} +
                {vget (chainCopy (v.set a (vget v b)) (b :: rest'))
                  ((b :: rest').getLast (by simp))} := by rw [add_right_comm]
          _ = (v : Multiset α) + {vget v b} +
                {vget (chainCopy (v.set a (vget v b)) (b :: rest'))
                  ((b :: rest').getLast (by simp))} := by rw [hstep]
          _ = ((v : Multiset α) + {vget (chainCopy (v.set a (vget v b)) (b :: rest'))
                ((b :: rest').getLast (by simp))}) + {vget v b} := by rw [add_right_comm]
      exact add_right_cancel key

theorem pathRotate_multiset (v : List α) (p : List Nat)
    (hb : ∀ q ∈ p, q < v.length) :
    ((pathRotate v p : List α) : Multiset α) = (v : Multiset α) := by
  cases p with
  | nil => simp [pathRotate]
  | cons p0 rest =>
    have hne : (p0 :: rest) ≠ [] := by simp
    have hlast : (p0 :: rest).getLast hne < (chainCopy v (p0 :: rest)).length := by
      rw [chainCopy_length]
      exact hb _ (List.getLast_mem hne)
    have h1 := multiset_set (v := chainCopy v (p0 :: rest))
      (a := (p0 :: rest).getLast hne) (vget v p0) hlast
    have h2 := chainCopy_multiset v (p0 :: rest) hne hb
    simp only [List.getD_cons_zero] at h2
    have : ((pathRotate v (p0 :: rest) : List α) : Multiset α) +
        {vget (chainCopy v (p0 :: rest)) ((p0 :: rest).getLast hne)} =
        (v : Multiset α) + {vget (chainCopy v (p0 :: rest)) ((p0 :: rest).getLast hne)} := by
      rw [pathRotate, h1]
      exact h2
    exact add_right_cancel this

theorem chainCopy_untouched (v : List α) (p : List Nat) (q : Nat)
    (hq : q ∉ p.dropLast) : vget (chainCopy v p) q = vget v q := by
  induction p generalizing v with
  | nil => simp [chainCopy]
  | cons a rest ih =>
    cases rest with
    | nil => simp [chainCopy]
    | cons b rest' =>
      rw [List.dropLast_cons₂] at hq
      have hqa : q ≠ a := fun h => hq (by simp [h])
      have hq' : q ∉ (b :: rest').dropLast := fun h => hq (List.mem_cons_of_mem _ h)
      simp only [chainCopy]
      rw [ih _ hq']
      exact vget_set_other _ hqa

theorem chainCopy_getD_at (v : List α) (p : List Nat) (hnd : p.Nodup)
    (hb : ∀ q ∈ p, q < v.length) (j : Nat) (hj : j + 1 < p.length) :
    vget (chainCopy v p) (p.getD j 0) = vget v (p.getD (j + 1) 0) := by
  induction p generalizing v j with
  | nil => simp at hj
  | cons a rest ih =>
    cases rest with
    | nil => simp at hj
    | cons b rest' =>
      simp only [chainCopy]
      cases j with
      | zero =>
        have ha : a ∉ (b :: rest') := (List.nodup_cons.mp hnd).1
        have ha2 : a ∉ (b :: rest').dropLast := fun h =>
          ha ((List.dropLast_sublist _).subset h)
        rw [List.getD_cons_zero, List.getD_cons_succ, List.getD_cons_zero]
        rw [chainCopy_untouched _ _ _ ha2]
        exact vget_set_self _ (hb a (by simp))
      | succ j' =>
        rw [List.getD_cons_succ, List.getD_cons_succ]
        have hnd' := (List.nodup_cons.mp hnd).2
        have hb' : ∀ q ∈ (b :: rest'), q < (v.set a (vget v b)).length := by
          intro q hq
          simpa using hb q (List.mem_cons_of_mem _ hq)
        have hj' : j' + 1 < (b :: rest').length := by
          simpa using Nat.lt_of_succ_lt_succ hj
        rw [ih _ hnd' hb' j' hj']
        have hmem : (b :: rest').getD (j' + 1) 0 ∈ (b :: rest') := by
          rw [List.getD_eq_getElem _ _ hj']
          exact List.getElem_mem _
        have hne : (b :: rest').getD (j' + 1) 0 ≠ a := fun h =>
          (List.nodup_cons.mp hnd).1 (h ▸ hmem)
        exact vget_set_other _ hne

theorem pathRotate_untouched (v : List α) (p : List Nat) (q : Nat) (hq : q ∉ p) :
    vget (pathRotate v p) q = vget v q := by
  cases p with
  | nil => simp [pathRotate]
  | cons p0 rest =>
    rw [pathRotate]
    have hlast : (p0 :: rest).getLast (by simp) ∈ (p0 :: rest) := List.getLast_mem _
    have hne : q ≠ (p0 :: rest).getLast (by simp) := fun h => hq (h ▸ hlast)
    rw [vget_set_other _ hne]
    exact chainCopy_untouched _ _ _ (fun h => hq ((List.dropLast_sublist _).subset h))

theorem pathRotate_getD (v : List α) (p : List Nat) (hnd : p.Nodup)
    (hb : ∀ q ∈ p, q < v.length) (j : Nat) (hj : j < p.length) :
    vget (pathRotate v p) (p.getD j 0) = vget v (p.getD ((j + 1) % p.length) 0) := by
  cases p with
  | nil => simp at hj
  | cons p0 rest =>
    rw [pathRotate]
    by_cases hlt : j + 1 < (p0 :: rest).length
    · rw [Nat.mod_eq_of_lt hlt]
      have hj2 : j < (p0 :: rest).length - 1 := by omega
      have hglast : (p0 :: rest).getLast (by simp) =
          (p0 :: rest)[(p0 :: rest).length - 1] := List.getLast_eq_getElem _ _
      have hne : (p0 :: rest).getD j 0 ≠ (p0 :: rest).getLast (by simp) := by
        rw [hglast, List.getD_eq_getElem _ _ hj]
        intro h
        have := (@List.Nodup.getElem_inj_iff _ _ hnd _ hj _ (by omega)).mp h
        omega
      rw [vget_set_other _ hne]
      exact chainCopy_getD_at v _ hnd hb j hlt
    · have hlen : 0 < (p0 :: rest).length := by simp
      have hj3 : j = (p0 :: rest).length - 1 := by omega
      have heq : (p0 :: rest).getD j 0 = (p0 :: rest).getLast (by simp) := by
        subst hj3
        rw [List.getLast_eq_getElem, List.getD_eq_getElem _ _ hj]
      rw [heq]
      have hmod : (j + 1) % (p0 :: rest).length = 0 := by
        have : j + 1 = (p0 :: rest).length := by omega
        simp [this]
      rw [vget_set_self _ (by
        rw [chainCopy_length]
        exact hb _ (List.getLast_mem _))]
      rw [hmod, List.getD_cons_zero]

theorem passedCount_true (c : Nat → Bool) :
    ∀ (fuel start k : Nat), k < passedCount c fuel start → c (start + k) = true := by
  intro fuel
  induction fuel with
  | zero => intro start k h; simp [passedCount] at h
  | succ fuel ih =>
    intro start k h
    rw [passedCount] at h
    by_cases hc : c start
    · rw [if_pos hc] at h
      cases k with
      | zero => simpa using hc
      | succ k =>
        have := ih (start + 1) k (by omega)
        simpa [Nat.add_comm, Nat.add_assoc, Nat.add_left_comm] using this
    · rw [if_neg hc] at h
      omega

theorem passedCount_eq (c : Nat → Bool) :
    ∀ (fuel start m : Nat), (∀ k < m, c (start + k) = true) → c (start + m) = false →
      m < fuel → passedCount c fuel start = m := by
  intro fuel
  induction fuel with
  | zero => intro start m _ _ h; omega
  | succ fuel ih =>
    intro start m hall hstop hm
    rw [passedCount]
    by_cases hc : c start
    · rw [if_pos hc]
      cases m with
      | zero => rw [Nat.add_zero] at hstop; rw [hstop] at hc; simp at hc
      | succ m =>
        have h1 : ∀ k < m, c (start + 1 + k) = true := by
          intro k hk
          have := hall (k + 1) (by omega)
          simpa [Nat.add_comm, Nat.add_assoc, Nat.add_left_comm] using this
        have h2 : c (start + 1 + m) = false := by
          have : start + 1 + m = start + (m + 1) := by omega
          rw [this]
          exact hstop
        rw [ih (start + 1) m h1 h2 (by omega)]
    · rw [if_neg hc]
      cases m with
      | zero => rfl
      | succ m =>
        have := hall 0 (by omega)
        rw [Nat.add_zero] at this
        rw [this] at hc
        simp at hc

theorem passedFrom0_eq {c : Nat → Bool} {m bound : Nat} (hm : m ≤ bound)
    (hall : ∀ i < m, c i = true) (hstop : c m = false) :
    passedFrom0 c bound = m := by
  unfold passedFrom0
  have h1 : ∀ k < m, c (0 + k) = true := by
    intro k hk
    simpa using hall k hk
  have h2 : c (0 + m) = false := by simpa using hstop
  exact passedCount_eq c (bound + 1) 0 m h1 h2 (by omega)

theorem passedFrom0_true {c : Nat → Bool} {bound i : Nat}
    (h : i < passedFrom0 c bound) : c i = true := by
  simpa using passedCount_true c (bound + 1) 0 i h

theorem cyclePath_length (left right : Nat → Nat) (n : Nat) :
    (cyclePath left right n).length = 2 * n := by
  simp [cyclePath]

theorem cyclePath_getD_even (left right : Nat → Nat) {n i : Nat} (hi : i < n) :
    (cyclePath left right n).getD (2 * i) 0 = left i := by
  unfold cyclePath
  have hlt : 2 * i < ((List.range (2 * n)).map
      (fun j => if j % 2 = 0 then left (j / 2) else right (j / 2))).length := by
    simp
    omega
  rw [List.getD_eq_getElem _ _ hlt, List.getElem_map, List.getElem_range]
  simp [Nat.mul_mod_right, Nat.mul_div_cancel_left _ (by norm_num : 0 < 2)]

theorem cyclePath_getD_odd (left right : Nat → Nat) {n i : Nat} (hi : i < n) :
    (cyclePath left right n).getD (2 * i + 1) 0 = right i := by
  unfold cyclePath
  have hlt : 2 * i + 1 < ((List.range (2 * n)).map
      (fun j => if j % 2 = 0 then left (j / 2) else right (j / 2))).length := by
    simp
    omega
  rw [List.getD_eq_getElem _ _ hlt, List.getElem_map, List.getElem_range]
  have h1 : (2 * i + 1) % 2 = 1 := by omega
  have h2 : (2 * i + 1) / 2 = i := by omega
  simp [h1, h2]

theorem mem_cyclePath {left right : Nat → Nat} {n q : Nat} :
    q ∈ cyclePath left right n ↔ ∃ i, i < n ∧ (q = left i ∨ q = right i) := by
  unfold cyclePath
  simp only [List.mem_map, List.mem_range]
  constructor
  · rintro ⟨j, hj, rfl⟩
    by_cases hpar : j % 2 = 0
    · exact ⟨j / 2, by omega, Or.inl (by simp [hpar])⟩
    · exact ⟨j / 2, by omega, Or.inr (by simp [hpar])⟩
  · rintro ⟨i, hi, h | h⟩
    · exact ⟨2 * i, by omega, by simp [Nat.mul_mod_right,
        Nat.mul_div_cancel_left _ (by norm_num : 0 < 2), h]⟩
    · refine ⟨2 * i + 1, by omega, ?_⟩
      have h1 : (2 * i + 1) % 2 = 1 := by omega
      have h2 : (2 * i + 1) / 2 = i := by omega
      simp [h1, h2, h]

end Cyclic

/-! Behaviour of the full cyclic_permutation_swap_loop. -/

section LoopSpec

variable {α : Type} [Inhabited α]
variable {check : Nat → Bool} {left right : Nat → Nat} {bound : Nat}

theorem cyclicLoop_fst_length (check : Nat → Bool) (left right : Nat → Nat)
    (bound : Nat) (v : List α) :
    (cyclicPermutationSwapLoop check left right bound v).1.length = v.length := by
  simp only [cyclicPermutationSwapLoop]
  split
  · rfl
  · simp [pathRotate_length]

theorem cyclicLoop_multiset (v : List α)
    (hb : ∀ q ∈ cyclePath left right (passedFrom0 check bound), q < v.length) :
    (((cyclicPermutationSwapLoop check left right bound v).1 : List α) : Multiset α) =
      (v : Multiset α) := by
  simp only [cyclicPermutationSwapLoop]
  split
  · rfl
  · exact pathRotate_multiset v _ hb

theorem cyclicLoop_moves (v : List α) (h : passedFrom0 check bound ≠ 0) :
    (cyclicPermutationSwapLoop check left right bound v).2 =
      2 * passedFrom0 check bound + 1 := by
  simp only [cyclicPermutationSwapLoop]
  split
  · omega
  · rfl

theorem cyclicLoop_of_zero (v : List α) (h : passedFrom0 check bound = 0) :
    cyclicPermutationSwapLoop check left right bound v = (v, 0) := by
  simp only [cyclicPermutationSwapLoop]
  split
  · rfl
  · omega

theorem cyclicLoop_fst_eq (v : List α) (h : passedFrom0 check bound ≠ 0) :
    (cyclicPermutationSwapLoop check left right bound v).1 =
      pathRotate v (cyclePath left right (passedFrom0 check bound)) := by
  simp only [cyclicPermutationSwapLoop]
  split
  · omega
  · rfl

theorem cyclicLoop_left (v : List α)
    (hnd : (cyclePath left right (passedFrom0 check bound)).Nodup)
    (hb : ∀ q ∈ cyclePath left right (passedFrom0 check bound), q < v.length)
    {i : Nat} (hi : i < passedFrom0 check bound) :
    vget (cyclicPermutationSwapLoop check left right bound v).1 (left i) =
      vget v (right i) := by
  set n := passedFrom0 check bound with hn
  rw [cyclicLoop_fst_eq v (by omega)]
  have h1 : (cyclePath left right n).getD (2 * i) 0 = left i :=
    cyclePath_getD_even left right hi
  have h2 : (cyclePath left right n).getD (2 * i + 1) 0 = right i :=
    cyclePath_getD_odd left right hi
  have hj : 2 * i < (cyclePath left right n).length := by
    rw [cyclePath_length]
    omega
  have := pathRotate_getD v (cyclePath left right n) hnd hb (2 * i) hj
  rw [h1] at this
  rw [this, cyclePath_length, Nat.mod_eq_of_lt (by omega), h2]

theorem cyclicLoop_right (v : List α)
    (hnd : (cyclePath left right (passedFrom0 check bound)).Nodup)
    (hb : ∀ q ∈ cyclePath left right (passedFrom0 check bound), q < v.length)
    {i : Nat} (hi : i < passedFrom0 check bound) :
    vget (cyclicPermutationSwapLoop check left right bound v).1 (right i) =
      vget v (left ((i + 1) % passedFrom0 check bound)) := by
  set n := passedFrom0 check bound with hn
  rw [cyclicLoop_fst_eq v (by omega)]
  have h2 : (cyclePath left right n).getD (2 * i + 1) 0 = right i :=
    cyclePath_getD_odd left right hi
  have hj : 2 * i + 1 < (cyclePath left right n).length := by
    rw [cyclePath_length]
    omega
  have key := pathRotate_getD v (cyclePath left right n) hnd hb (2 * i + 1) hj
  rw [h2, cyclePath_length] at key
  rw [key]
  by_cases hlast : i + 1 < n
  · rw [Nat.mod_eq_of_lt (by omega), Nat.mod_eq_of_lt (by omega)]
    have : 2 * i + 1 + 1 = 2 * (i + 1) := by omega
    rw [this, cyclePath_getD_even left right hlast]
  · have hin : i + 1 = n := by omega
    have hz1 : (2 * i + 1 + 1) % (2 * n) = 0 := by
      have : 2 * i + 1 + 1 = 2 * n := by omega
      simp [this]
    have hz2 : (i + 1) % n = 0 := by
      simp [hin]
    rw [hz1, hz2]
    have h0 : (cyclePath left right n).getD 0 0 = left 0 := by
      have := cyclePath_getD_even left right (n := n) (i := 0) (by omega)
      simpa using this
    rw [h0]

theorem cyclicLoop_untouched (v : List α) (q : Nat)
    (hq : ∀ i < passedFrom0 check bound, q ≠ left i ∧ q ≠ right i) :
    vget (cyclicPermutationSwapLoop check left right bound v).1 q = vget v q := by
  simp only [cyclicPermutationSwapLoop]
  split
  · rfl
  · apply pathRotate_untouched
    intro hmem
    obtain ⟨i, hi, h | h⟩ := mem_cyclePath.mp hmem
    · exact (hq i hi).1 h
    · exact (hq i hi).2 h

end LoopSpec

/-! Nodup criterion for the interleaved path. -/

theorem cyclePath_nodup {left right : Nat → Nat} {n : Nat}
    (hL : ∀ i < n, ∀ j < n, left i = left j → i = j)
    (hR : ∀ i < n, ∀ j < n, right i = right j → i = j)
    (hLR : ∀ i < n, ∀ j < n, left i ≠ right j) :
    (cyclePath left right n).Nodup := by
  unfold cyclePath
  apply List.Nodup.map_on ?_ (List.nodup_range _)
  intro x hx y hy hf
  simp only [List.mem_range] at hx hy
  by_cases hxp : x % 2 = 0 <;> by_cases hyp : y % 2 = 0
  · rw [if_pos hxp, if_pos hyp] at hf
    have := hL (x / 2) (by omega) (y / 2) (by omega) hf
    omega
  · rw [if_pos hxp, if_neg hyp] at hf
    exact absurd hf (hLR (x / 2) (by omega) (y / 2) (by omega))
  · rw [if_neg hxp, if_pos hyp] at hf
    exact absurd hf.symm (hLR (y / 2) (by omega) (x / 2) (by omega))
  · rw [if_neg hxp, if_neg hyp] at hf
    have := hR (x / 2) (by omega) (y / 2) (by omega) hf
    omega

/-! The pure (non-aborting) reduction of the move_opt scan, and the scan
invariant: what the two index buffers hold after the scan. -/

section MoveScanSpec

variable {α : Type} [Inhabited α]

theorem foldlM_option_pure {β γ : Type} (step : β → γ → Option β) (pstep : β → γ → β)
    (h : ∀ s x, step s x = some (pstep s x)) :
    ∀ (l : List γ) (s : β), l.foldlM step s = some (l.foldl pstep s) := by
  intro l
  induction l with
  | nil => intro s; rfl
  | cons a l ih =>
    intro s
    rw [List.foldlM_cons, h]
    simp only [Option.bind_eq_bind, Option.some_bind]
    exact ih (pstep s a)

theorem moveScanStep_pure (v : List α) (pivot : α) (f : α → α → Bool) (len : Nat)
    (st : MoveScanState) (i : Nat) :
    moveScanStep v pivot (pureLess f) len st i = some (moveScanStepP v pivot f len st i) :=
  rfl

theorem moveScan_pure (g1 g2 : Nat → Nat) (v : List α) (pivot : α) (f : α → α → Bool)
    (len : Nat) :
    moveScan g1 g2 v pivot (pureLess f) len =
      some ((List.range len).foldl (moveScanStepP v pivot f len)
        ⟨fun j => g1 j % 256, fun j => g2 j % 256, 0⟩) :=
  foldlM_option_pure _ _ (moveScanStep_pure v pivot f len) _ _

/-- The move_opt scan invariant, stated for the ground state after
scanning the first `n` elements: `ge_count` counts the
greater-or-equal prefix elements, `ge_idx[0..ge_count)` holds their
indices in scan order, the cell just past them holds `n - 1` whenever the
last scanned element was a less-than one (the stale value the loop's
continue check may read), and the less-than indices sit at the fixed
positions `len - 1 - t` of the lt buffer. -/
theorem moveScan_foldl_inv (v : List α) (pivot : α) (f : α → α → Bool)
    (init : MoveScanState) (hinit : init.geCount = 0) (n : Nat) (hn : n ≤ v.length) :
    (((List.range n).foldl (moveScanStepP v pivot f v.length) init).geCount =
        ((List.range n).filter (fun i => !(f (vget v i) pivot))).length) ∧
    (∀ q < ((List.range n).filter (fun i => !(f (vget v i) pivot))).length,
      ((List.range n).foldl (moveScanStepP v pivot f v.length) init).geBuf q =
        ((List.range n).filter (fun i => !(f (vget v i) pivot))).getD q 0) ∧
    (0 < n → f (vget v (n - 1)) pivot = true →
      ((List.range n).foldl (moveScanStepP v pivot f v.length) init).geBuf
          ((List.range n).filter (fun i => !(f (vget v i) pivot))).length = n - 1) ∧
    (∀ t < ((List.range n).filter (fun i => f (vget v i) pivot)).length,
      ((List.range n).foldl (moveScanStepP v pivot f v.length) init).ltBuf
          (v.length - 1 - t) =
        ((List.range n).filter (fun i => f (vget v i) pivot)).getD t 0) := by
  induction n with
  | zero => simp [hinit]
  | succ n ih =>
    obtain ⟨ih1, ih2, _ih3, ih4⟩ := ih (by omega)
    have hrange : List.range (n + 1) = List.range n ++ [n] := List.range_succ n
    set st := (List.range n).foldl (moveScanStepP v pivot f v.length) init with hst
    have hfold : (List.range (n + 1)).foldl (moveScanStepP v pivot f v.length) init =
        moveScanStepP v pivot f v.length st n := by
      rw [hrange, List.foldl_append]
      rfl
    have hge : (List.range (n + 1)).filter (fun i => !(f (vget v i) pivot)) =
        ((List.range n).filter (fun i => !(f (vget v i) pivot))) ++
          (if f (vget v n) pivot then [] else [n]) := by
      rw [hrange, List.filter_append]
      congr 1
      by_cases hf : f (vget v n) pivot <;> simp [hf]
    have hlt : (List.range (n + 1)).filter (fun i => f (vget v i) pivot) =
        ((List.range n).filter (fun i => f (vget v i) pivot)) ++
          (if f (vget v n) pivot then [n] else []) := by
      rw [hrange, List.filter_append]
      congr 1
      by_cases hf : f (vget v n) pivot <;> simp [hf]
    set geL := (List.range n).filter (fun i => !(f (vget v i) pivot)) with hgeL
    set ltL := (List.range n).filter (fun i => f (vget v i) pivot) with hltL
    have hsum : ltL.length + geL.length = n := by
      have hp := (List.filter_append_perm (fun i => f (vget v i) pivot)
        (List.range n)).length_eq
      simpa [hltL, hgeL] using hp
    have hnlen : n ≤ v.length - 1 := by omega
    have hstep_ge : (moveScanStepP v pivot f v.length st n).geBuf =
        bufSet st.geBuf st.geCount n := rfl
    have hstep_lt : (moveScanStepP v pivot f v.length st n).ltBuf =
        bufSet st.ltBuf ((v.length - 1 - n) + st.geCount) n := rfl
    have hstep_gc : (moveScanStepP v pivot f v.length st n).geCount =
        st.geCount + (if f (vget v n) pivot then 0 else 1) := rfl
    refine ⟨?_, ?_, ?_, ?_⟩
    · rw [hfold, hstep_gc, hge, ih1]
      by_cases hf : f (vget v n) pivot <;> simp [hf]
    · intro q hq
      rw [hfold, hstep_ge, hge]
      rw [hge] at hq
      by_cases hf : f (vget v n) pivot
      · rw [if_pos hf] at hq ⊢
        simp only [List.append_nil] at hq ⊢
        have hqne : q ≠ st.geCount := by rw [ih1]; omega
        rw [bufSet_other _ _ _ _ hqne]
        exact ih2 q hq
      · rw [if_neg hf] at hq ⊢
        simp only [List.length_append, List.length_cons, List.length_nil] at hq
        by_cases hq2 : q < geL.length
        · have hqne : q ≠ st.geCount := by rw [ih1]; omega
          rw [bufSet_other _ _ _ _ hqne, List.getD_append _ _ _ _ hq2]
          exact ih2 q hq2
        · have hqeq : q = geL.length := by omega
          rw [hqeq, ← ih1, bufSet_self, ih1, getD_concat_self]
    · intro _ hf
      simp only [Nat.add_sub_cancel] at hf
      rw [hfold, hstep_ge, hge, if_pos hf]
      simp only [List.append_nil]
      rw [← ih1, bufSet_self]
      omega
    · intro t ht
      rw [hfold, hstep_lt, hlt]
      rw [hlt] at ht
      have hpos : (v.length - 1 - n) + st.geCount = v.length - 1 - ltL.length := by
        rw [ih1]
        omega
      by_cases hf : f (vget v n) pivot
      · rw [if_pos hf] at ht ⊢
        simp only [List.length_append, List.length_cons, List.length_nil] at ht
        by_cases ht2 : t < ltL.length
        · have hne : v.length - 1 - t ≠ (v.length - 1 - n) + st.geCount := by
            rw [hpos]
            omega
          rw [bufSet_other _ _ _ _ hne, List.getD_append _ _ _ _ ht2]
          exact ih4 t ht2
        · have hteq : t = ltL.length := by omega
          have hhit : v.length - 1 - t = (v.length - 1 - n) + st.geCount := by
            rw [hpos, hteq]
          rw [hhit, bufSet_self, hteq, getD_concat_self]
      · rw [if_neg hf] at ht ⊢
        simp only [List.append_nil] at ht ⊢
        have hne : v.length - 1 - t ≠ (v.length - 1 - n) + st.geCount := by
          rw [hpos]
          omega
        rw [bufSet_other _ _ _ _ hne]
        exact ih4 t ht


end MoveScanSpec

/-! Helper lemmas for index-list bookkeeping. -/

section IndexLists

variable {α : Type} [Inhabited α]

theorem nodup_getD_inj {L : List Nat} (h : L.Nodup) {i j : Nat}
    (hi : i < L.length) (hj : j < L.length) (he : L.getD i 0 = L.getD j 0) : i = j := by
  rw [List.getD_eq_getElem _ _ hi, List.getD_eq_getElem _ _ hj] at he
  exact (h.getElem_inj_iff).mp he

theorem getD_append_add {l1 l2 : List Nat} (t : Nat) :
    (l1 ++ l2).getD (l1.length + t) 0 = l2.getD t 0 := by
  induction l1 with
  | nil => simp
  | cons a l ih =>
    simp only [List.cons_append, List.length_cons]
    have harith : l.length + 1 + t = (l.length + t) + 1 := by omega
    rw [harith, List.getD_cons_succ]
    exact ih

theorem filter_range_decomp (len k : Nat) (hk : k ≤ len) (p : Nat → Bool) :
    (List.range len).filter p =
      (List.range k).filter p ++ (((List.range (len - k)).map (fun x => k + x)).filter p) := by
  conv_lhs => rw [show len = k + (len - k) by omega]
  rw [List.range_add, List.filter_append]

theorem mem_filter_range {n q : Nat} {p : Nat → Bool} (h : q ∈ (List.range n).filter p) :
    q < n ∧ p q = true := by
  have h2 := List.mem_filter.mp h
  exact ⟨List.mem_range.mp h2.1, h2.2⟩

theorem mem_filter_map_ge {d k q : Nat} {p : Nat → Bool}
    (h : q ∈ ((List.range d).map (fun x => k + x)).filter p) : k ≤ q := by
  have h2 := (List.mem_filter.mp h).1
  obtain ⟨x, _, rfl⟩ := List.mem_map.mp h2
  omega

theorem getD_mem_of_lt {L : List Nat} {i : Nat} (h : i < L.length) : L.getD i 0 ∈ L := by
  rw [List.getD_eq_getElem _ _ h]
  exact List.getElem_mem _

theorem exists_getD_of_mem {L : List Nat} {q : Nat} (h : q ∈ L) :
    ∃ i, i < L.length ∧ L.getD i 0 = q := by
  obtain ⟨i, hi, rfl⟩ := List.mem_iff_getElem.mp h
  exact ⟨i, hi, List.getD_eq_getElem _ _ hi⟩

theorem length_filter_not_add {β : Type} (p : β → Bool) (l : List β) :
    (l.filter p).length + (l.filter (fun x => !p x)).length = l.length := by
  have hp := (List.filter_append_perm p l).length_eq
  simpa using hp

theorem all_lt_of_geIdxList_nil {v : List α} {pivot : α} {f : α → α → Bool}
    (h : geIdxList v pivot f = []) : ∀ x ∈ v, f x pivot = true := by
  intro x hx
  obtain ⟨i, hi, rfl⟩ := List.mem_iff_getElem.mp hx
  by_contra hf
  have hvg : vget v i = v[i] := by
    rw [vget, List.getD_eq_getElem _ _ hi]
  have hmem : i ∈ geIdxList v pivot f := by
    unfold geIdxList
    rw [List.mem_filter]
    refine ⟨List.mem_range.mpr hi, ?_⟩
    rw [hvg]
    cases hb : f v[i] pivot
    · rfl
    · exact absurd hb hf
  rw [h] at hmem
  simp at hmem

theorem geIdxList_nodup (v : List α) (pivot : α) (f : α → α → Bool) :
    (geIdxList v pivot f).Nodup :=
  List.Nodup.filter _ (List.nodup_range _)

theorem ltIdxList_nodup (v : List α) (pivot : α) (f : α → α → Bool) :
    (ltIdxList v pivot f).Nodup :=
  List.Nodup.filter _ (List.nodup_range _)

theorem mem_geIdxList {v : List α} {pivot : α} {f : α → α → Bool} {q : Nat}
    (h : q ∈ geIdxList v pivot f) : q < v.length ∧ f (vget v q) pivot = false := by
  have h2 := mem_filter_range h
  refine ⟨h2.1, ?_⟩
  have := h2.2
  cases hb : f (vget v q) pivot
  · rfl
  · rw [hb] at this
    simp at this

theorem mem_ltIdxList {v : List α} {pivot : α} {f : α → α → Bool} {q : Nat}
    (h : q ∈ ltIdxList v pivot f) : q < v.length ∧ f (vget v q) pivot = true :=
  mem_filter_range h

theorem ltIdxList_length_add (v : List α) (pivot : α) (f : α → α → Bool) :
    (ltIdxList v pivot f).length + (geIdxList v pivot f).length = v.length := by
  have hs := length_filter_not_add (fun i => f (vget v i) pivot) (List.range v.length)
  simp only [List.length_range] at hs
  exact hs

theorem ltIdxList_length_le (v : List α) (pivot : α) (f : α → α → Bool) :
    (ltIdxList v pivot f).length ≤ v.length := by
  have := ltIdxList_length_add v pivot f
  omega

theorem geIdxList_decomp (v : List α) (pivot : α) (f : α → α → Bool) :
    geIdxList v pivot f =
      (List.range (ltIdxList v pivot f).length).filter (fun i => !(f (vget v i) pivot)) ++
      (((List.range (v.length - (ltIdxList v pivot f).length)).map
          (fun x => (ltIdxList v pivot f).length + x)).filter
        (fun i => !(f (vget v i) pivot))) :=
  filter_range_decomp v.length (ltIdxList v pivot f).length (ltIdxList_length_le v pivot f) _

theorem ltIdxList_decomp (v : List α) (pivot : α) (f : α → α → Bool) :
    ltIdxList v pivot f =
      (List.range (ltIdxList v pivot f).length).filter (fun i => f (vget v i) pivot) ++
      (((List.range (v.length - (ltIdxList v pivot f).length)).map
          (fun x => (ltIdxList v pivot f).length + x)).filter
        (fun i => f (vget v i) pivot)) :=
  filter_range_decomp v.length (ltIdxList v pivot f).length (ltIdxList_length_le v pivot f) _

theorem misplaced_le_lt (v : List α) (pivot : α) (f : α → α → Bool) :
    misplacedGeCount v pivot f ≤ (ltIdxList v pivot f).length := by
  unfold misplacedGeCount
  exact le_trans (List.length_filter_le _ _) (le_of_eq (List.length_range _))

theorem misplaced_le_ge (v : List α) (pivot : α) (f : α → α → Bool) :
    misplacedGeCount v pivot f ≤ (geIdxList v pivot f).length := by
  rw [geIdxList_decomp v pivot f, List.length_append]
  unfold misplacedGeCount
  omega

theorem ltRegion_filter_len (v : List α) (pivot : α) (f : α → α → Bool) :
    ((List.range (ltIdxList v pivot f).length).filter
        (fun i => f (vget v i) pivot)).length =
      (ltIdxList v pivot f).length - misplacedGeCount v pivot f := by
  have hs := length_filter_not_add (fun i => f (vget v i) pivot)
    (List.range (ltIdxList v pivot f).length)
  simp only [List.length_range] at hs
  unfold misplacedGeCount
  omega

theorem geIdx_prefix_lt (v : List α) (pivot : α) (f : α → α → Bool) {i : Nat}
    (hi : i < misplacedGeCount v pivot f) :
    (geIdxList v pivot f).getD i 0 < (ltIdxList v pivot f).length := by
  rw [geIdxList_decomp v pivot f, List.getD_append _ _ _ _ hi]
  have hmem := getD_mem_of_lt (L := (List.range (ltIdxList v pivot f).length).filter
    (fun i => !(f (vget v i) pivot))) (i := i) hi
  exact (mem_filter_range hmem).1

theorem fwd_indexing {L A B : List Nat} (hd : L = A ++ B) {m i : Nat}
    (hA : A.length = m) (hm : m ≤ i) :
    L.getD i 0 = B.getD (i - m) 0 := by
  subst hd
  have hidx : i = A.length + (i - m) := by omega
  conv_lhs => rw [hidx]
  rw [getD_append_add]

theorem back_indexing {L A B : List Nat} (hd : L = A ++ B) {k m i : Nat}
    (hA : A.length = k - m) (hB : B.length = m) (hmk : m ≤ k) (hi : i < m)
    (hk : k = L.length) :
    L.getD (k - 1 - i) 0 = B.getD (m - 1 - i) 0 := by
  subst hd
  rw [List.length_append] at hk
  have hidx : k - 1 - i = A.length + (m - 1 - i) := by omega
  rw [hidx, getD_append_add]

theorem geIdx_suffix_ge (v : List α) (pivot : α) (f : α → α → Bool) {i : Nat}
    (h1 : misplacedGeCount v pivot f ≤ i) (h2 : i < (geIdxList v pivot f).length) :
    (ltIdxList v pivot f).length ≤ (geIdxList v pivot f).getD i 0 := by
  have hmdef : misplacedGeCount v pivot f =
      ((List.range (ltIdxList v pivot f).length).filter
        (fun i => !(f (vget v i) pivot))).length := rfl
  have hlendec := congrArg List.length (geIdxList_decomp v pivot f)
  rw [List.length_append] at hlendec
  rw [fwd_indexing (geIdxList_decomp v pivot f) hmdef.symm h1]
  apply mem_filter_map_ge (d := v.length - (ltIdxList v pivot f).length)
  apply getD_mem_of_lt
  omega

theorem misplaced_ge_exists (v : List α) (pivot : α) (f : α → α → Bool) {j : Nat}
    (hj : j < (ltIdxList v pivot f).length) (hge : f (vget v j) pivot = false) :
    ∃ i, i < misplacedGeCount v pivot f ∧ (geIdxList v pivot f).getD i 0 = j := by
  have hmem : j ∈ (List.range (ltIdxList v pivot f).length).filter
      (fun i => !(f (vget v i) pivot)) := by
    rw [List.mem_filter]
    exact ⟨List.mem_range.mpr hj, by rw [hge]; rfl⟩
  obtain ⟨i, hi, hv⟩ := exists_getD_of_mem hmem
  refine ⟨i, hi, ?_⟩
  rw [geIdxList_decomp v pivot f, List.getD_append _ _ _ _ hi]
  exact hv

theorem ltIdxList_suffix_len (v : List α) (pivot : α) (f : α → α → Bool) :
    (((List.range (v.length - (ltIdxList v pivot f).length)).map
        (fun x => (ltIdxList v pivot f).length + x)).filter
      (fun i => f (vget v i) pivot)).length = misplacedGeCount v pivot f := by
  have hm1 := misplaced_le_lt v pivot f
  have hA := ltRegion_filter_len v pivot f
  have hlen := congrArg List.length (ltIdxList_decomp v pivot f)
  rw [List.length_append] at hlen
  omega

theorem ltIdx_back_ge (v : List α) (pivot : α) (f : α → α → Bool) {i : Nat}
    (hi : i < misplacedGeCount v pivot f) :
    (ltIdxList v pivot f).length ≤
      (ltIdxList v pivot f).getD ((ltIdxList v pivot f).length - 1 - i) 0 := by
  have hm1 := misplaced_le_lt v pivot f
  have hA := ltRegion_filter_len v pivot f
  have hB := ltIdxList_suffix_len v pivot f
  rw [back_indexing (ltIdxList_decomp v pivot f) hA hB hm1 hi rfl]
  apply mem_filter_map_ge (d := v.length - (ltIdxList v pivot f).length)
  apply getD_mem_of_lt
  omega

theorem misplaced_lt_exists (v : List α) (pivot : α) (f : α → α → Bool) {j : Nat}
    (h1 : (ltIdxList v pivot f).length ≤ j) (h2 : j < v.length)
    (hlt : f (vget v j) pivot = true) :
    ∃ i, i < misplacedGeCount v pivot f ∧
      (ltIdxList v pivot f).getD ((ltIdxList v pivot f).length - 1 - i) 0 = j := by
  have hm1 := misplaced_le_lt v pivot f
  have hA := ltRegion_filter_len v pivot f
  have hlen := congrArg List.length (ltIdxList_decomp v pivot f)
  rw [List.length_append] at hlen
  have hmem : j ∈ ltIdxList v pivot f := by
    unfold ltIdxList
    rw [List.mem_filter]
    exact ⟨List.mem_range.mpr h2, hlt⟩
  have hB := ltIdxList_suffix_len v pivot f
  rw [ltIdxList_decomp v pivot f] at hmem
  rcases List.mem_append.mp hmem with hmA | hmB
  · have := (mem_filter_range hmA).1
    omega
  · obtain ⟨t, ht, hv⟩ := exists_getD_of_mem hmB
    rw [hB] at ht
    refine ⟨misplacedGeCount v pivot f - 1 - t, by omega, ?_⟩
    rw [back_indexing (ltIdxList_decomp v pivot f) hA hB hm1 (by omega) rfl]
    have ht2 : misplacedGeCount v pivot f - 1 - (misplacedGeCount v pivot f - 1 - t) = t := by
      omega
    rw [ht2]
    exact hv

theorem stale_last_lt (v : List α) (pivot : α) (f : α → α → Bool)
    (hne : (geIdxList v pivot f).length ≠ 0)
    (hall : misplacedGeCount v pivot f = (geIdxList v pivot f).length) :
    0 < v.length ∧ f (vget v (v.length - 1)) pivot = true ∧
      (ltIdxList v pivot f).length ≤ v.length - 1 := by
  have hadd := ltIdxList_length_add v pivot f
  have hlen0 : 0 < v.length := by
    have := ltIdxList_length_le v pivot f
    omega
  have hk1 : (ltIdxList v pivot f).length ≤ v.length - 1 := by omega
  refine ⟨hlen0, ?_, hk1⟩
  cases hb : f (vget v (v.length - 1)) pivot
  · exfalso
    have hmem : v.length - 1 ∈ geIdxList v pivot f := by
      unfold geIdxList
      rw [List.mem_filter]
      exact ⟨List.mem_range.mpr (by omega), by rw [hb]; rfl⟩
    have hlendec := congrArg List.length (geIdxList_decomp v pivot f)
    rw [List.length_append] at hlendec
    have hBnil : (((List.range (v.length - (ltIdxList v pivot f).length)).map
        (fun x => (ltIdxList v pivot f).length + x)).filter
          (fun i => !(f (vget v i) pivot))).length = 0 := by
      unfold misplacedGeCount at hall
      omega
    rw [geIdxList_decomp v pivot f] at hmem
    rcases List.mem_append.mp hmem with hmA | hmB
    · have := (mem_filter_range hmA).1
      omega
    · rw [List.length_eq_zero.mp hBnil] at hmB
      simp at hmB
  · rfl

end IndexLists

/-! Full functional correctness of small_partition_move_opt under a pure
comparison. -/

section MoveOptCorrect

variable {α : Type} [Inhabited α]

theorem smallPartitionMoveOpt_run (g1 g2 : Nat → Nat) (v : List α) (pivot : α)
    (f : α → α → Bool) (hlen : v.length < MAX_SMALL_PARTITION_LEN) :
    smallPartitionMoveOpt g1 g2 v pivot (pureLess f) =
      (let st := (List.range v.length).foldl (moveScanStepP v pivot f v.length)
        ⟨fun j => g1 j % 256, fun j => g2 j % 256, 0⟩
       let ltCount := v.length - st.geCount
       let check := fun i => decide (i < ltCount) && decide (st.geBuf i < ltCount)
       let res := cyclicPermutationSwapLoop check (fun i => st.geBuf i)
         (fun i => st.ltBuf (st.geCount + i)) ltCount v
       (some (ltCount, res.2), res.1)) := by
  unfold smallPartitionMoveOpt
  rw [if_neg (by omega), moveScan_pure]

/-- What the cyclic-permutation phase of small_partition_move_opt does to
the sequence, given the scan invariant: length and multiset are
preserved, the first `lt_count` positions all compare less than the
pivot, and the rest do not. -/
theorem moveOpt_cyclic_correct (v : List α) (pivot : α) (f : α → α → Bool)
    (st : MoveScanState)
    (inv1 : st.geCount = (geIdxList v pivot f).length)
    (inv2 : ∀ q < (geIdxList v pivot f).length,
      st.geBuf q = (geIdxList v pivot f).getD q 0)
    (inv3 : 0 < v.length → f (vget v (v.length - 1)) pivot = true →
      st.geBuf (geIdxList v pivot f).length = v.length - 1)
    (inv4 : ∀ t < (ltIdxList v pivot f).length,
      st.ltBuf (v.length - 1 - t) = (ltIdxList v pivot f).getD t 0) :
    (cyclicPermutationSwapLoop
        (fun i => decide (i < (v.length - st.geCount)) &&
          decide (st.geBuf i < (v.length - st.geCount)))
        (fun i => st.geBuf i) (fun i => st.ltBuf (st.geCount + i))
        (v.length - st.geCount) v).1.length = v.length ∧
    (((cyclicPermutationSwapLoop
        (fun i => decide (i < (v.length - st.geCount)) &&
          decide (st.geBuf i < (v.length - st.geCount)))
        (fun i => st.geBuf i) (fun i => st.ltBuf (st.geCount + i))
        (v.length - st.geCount) v).1 : List α) : Multiset α) = (v : Multiset α) ∧
    (∀ j < (ltIdxList v pivot f).length,
      f (vget (cyclicPermutationSwapLoop
        (fun i => decide (i < (v.length - st.geCount)) &&
          decide (st.geBuf i < (v.length - st.geCount)))
        (fun i => st.geBuf i) (fun i => st.ltBuf (st.geCount + i))
        (v.length - st.geCount) v).1 j) pivot = true) ∧
    (∀ j, (ltIdxList v pivot f).length ≤ j → j < v.length →
      f (vget (cyclicPermutationSwapLoop
        (fun i => decide (i < (v.length - st.geCount)) &&
          decide (st.geBuf i < (v.length - st.geCount)))
        (fun i => st.geBuf i) (fun i => st.ltBuf (st.geCount + i))
        (v.length - st.geCount) v).1 j) pivot = false) := by
  have hadd := ltIdxList_length_add v pivot f
  have hkval : v.length - st.geCount = (ltIdxList v pivot f).length := by
    rw [inv1]
    omega
  rw [hkval]
  set K := (ltIdxList v pivot f).length with hK
  set m := misplacedGeCount v pivot f with hm
  set chk : Nat → Bool := fun i => decide (i < K) && decide (st.geBuf i < K) with hchk
  set lf : Nat → Nat := fun i => st.geBuf i with hlf
  set rf : Nat → Nat := fun i => st.ltBuf (st.geCount + i) with hrf
  set w := (cyclicPermutationSwapLoop chk lf rf K v).1 with hw
  have hlen_w : w.length = v.length := by
    rw [hw]
    exact cyclicLoop_fst_length _ _ _ _ _
  have hmK : m ≤ K := by
    rw [hm, hK]
    exact misplaced_le_lt v pivot f
  have hmge : m ≤ (geIdxList v pivot f).length := by
    rw [hm]
    exact misplaced_le_ge v pivot f
  by_cases hcase : (geIdxList v pivot f).length = 0
  · -- every element compares less than the pivot: the loop may consume
    -- stale and garbage index entries, but it still permutes in bounds.
    have hnil : geIdxList v pivot f = [] := List.length_eq_zero.mp hcase
    have hall := all_lt_of_geIdxList_nil hnil
    have hKlen : K = v.length := by
      rw [hK]
      omega
    have hbnd : ∀ q ∈ cyclePath lf rf (passedFrom0 chk K), q < v.length := by
      intro q hq
      obtain ⟨i, hi, hc2 | hc2⟩ := mem_cyclePath.mp hq
      · subst hc2
        have hci := passedFrom0_true hi
        rw [hchk] at hci
        simp only [Bool.and_eq_true, decide_eq_true_eq] at hci
        show st.geBuf i < v.length
        omega
      · subst hc2
        have hci := passedFrom0_true hi
        rw [hchk] at hci
        simp only [Bool.and_eq_true, decide_eq_true_eq] at hci
        show st.ltBuf (st.geCount + i) < v.length
        have hgc0 : st.geCount = 0 := by rw [inv1, hcase]
        have hpos : st.geCount + i = v.length - 1 - (v.length - 1 - i) := by
          rw [hgc0]
          omega
        rw [hpos]
        have hiv : v.length - 1 - i < K := by omega
        rw [inv4 _ hiv]
        have hmem := getD_mem_of_lt (L := ltIdxList v pivot f)
          (i := v.length - 1 - i) (by rw [← hK]; exact hiv)
        exact (mem_ltIdxList hmem).1
    have hmul : ((w : List α) : Multiset α) = (v : Multiset α) := by
      rw [hw]
      exact cyclicLoop_multiset v hbnd
    have hAa : ∀ j < K, f (vget w j) pivot = true := by
      intro j hj
      have hjw : j < w.length := by omega
      have hxmem : vget w j ∈ w := vget_mem hjw
      have hxv : vget w j ∈ v := by
        have h2 : (vget w j) ∈ ((w : List α) : Multiset α) := Multiset.mem_coe.mpr hxmem
        rw [hmul] at h2
        exact Multiset.mem_coe.mp h2
      exact hall _ hxv
    have hBb : ∀ j, K ≤ j → j < v.length → f (vget w j) pivot = false := by
      intro j h1 h2
      exact absurd h2 (by omega)
    exact ⟨hlen_w, hmul, hAa, hBb⟩
  · -- at least one element compares greater-or-equal: the loop runs for
    -- exactly `m` iterations over the misplaced pairs.
    have hchk_true : ∀ i < m, chk i = true := by
      intro i hi
      have hige : i < (geIdxList v pivot f).length := by omega
      have hbuf : st.geBuf i = (geIdxList v pivot f).getD i 0 := inv2 i hige
      have hltK : (geIdxList v pivot f).getD i 0 < K := by
        rw [hK]
        apply geIdx_prefix_lt
        rw [← hm]
        exact hi
      rw [hchk]
      simp only [Bool.and_eq_true, decide_eq_true_eq]
      exact ⟨by omega, by rw [hbuf]; exact hltK⟩
    have hchk_false : chk m = false := by
      show (decide (m < K) && decide (st.geBuf m < K)) = false
      by_cases hmK2 : m < K
      · have hbufm : K ≤ st.geBuf m := by
          by_cases hmg : m < (geIdxList v pivot f).length
          · rw [inv2 m hmg, hK]
            apply geIdx_suffix_ge
            · rw [hm]
            · exact hmg
          · have hmeq : m = (geIdxList v pivot f).length := by omega
            obtain ⟨hl0, hflast, hkle⟩ := stale_last_lt v pivot f hcase
              (by rw [← hm]; exact hmeq)
            rw [hmeq, inv3 hl0 hflast, hK]
            exact hkle
        have hneg : ¬ (st.geBuf m < K) := by omega
        simp [hneg]
      · simp [hmK2]
    have hn : passedFrom0 chk K = m := passedFrom0_eq hmK hchk_true hchk_false
    have hLval : ∀ i < m, lf i = (geIdxList v pivot f).getD i 0 := by
      intro i hi
      show st.geBuf i = _
      exact inv2 i (by omega)
    have hRval : ∀ i < m, rf i = (ltIdxList v pivot f).getD (K - 1 - i) 0 := by
      intro i hi
      show st.ltBuf (st.geCount + i) = _
      have hpos : st.geCount + i = v.length - 1 - (K - 1 - i) := by
        rw [inv1]
        omega
      rw [hpos]
      exact inv4 _ (by omega)
    have hLlt : ∀ i < m, lf i < K := by
      intro i hi
      rw [hLval i hi, hK]
      apply geIdx_prefix_lt
      rw [← hm]
      exact hi
    have hRge : ∀ i < m, K ≤ rf i := by
      intro i hi
      rw [hRval i hi, hK]
      apply ltIdx_back_ge
      rw [← hm]
      exact hi
    have hnd : (cyclePath lf rf (passedFrom0 chk K)).Nodup := by
      rw [hn]
      apply cyclePath_nodup
      · intro i hi j hj he
        rw [hLval i hi, hLval j hj] at he
        exact nodup_getD_inj (geIdxList_nodup v pivot f) (by omega) (by omega) he
      · intro i hi j hj he
        rw [hRval i hi, hRval j hj] at he
        have hinj := nodup_getD_inj (ltIdxList_nodup v pivot f)
          (show K - 1 - i < (ltIdxList v pivot f).length by rw [← hK]; omega)
          (show K - 1 - j < (ltIdxList v pivot f).length by rw [← hK]; omega) he
        omega
      · intro i hi j hj
        have h1 := hLlt i hi
        have h2 := hRge j hj
        omega
    have hbnd : ∀ q ∈ cyclePath lf rf (passedFrom0 chk K), q < v.length := by
      rw [hn]
      intro q hq
      obtain ⟨i, hi, hc2 | hc2⟩ := mem_cyclePath.mp hq
      · subst hc2
        rw [hLval i hi]
        have hmem := getD_mem_of_lt (L := geIdxList v pivot f) (i := i) (by omega)
        exact (mem_geIdxList hmem).1
      · subst hc2
        rw [hRval i hi]
        have hmem := getD_mem_of_lt (L := ltIdxList v pivot f) (i := K - 1 - i)
          (by rw [← hK]; omega)
        exact (mem_ltIdxList hmem).1
    have hmul : ((w : List α) : Multiset α) = (v : Multiset α) := by
      rw [hw]
      exact cyclicLoop_multiset v hbnd
    have hAa : ∀ j < K, f (vget w j) pivot = true := by
      intro j hj
      by_cases hcl : f (vget v j) pivot = false
      · obtain ⟨i, hi, hvi⟩ := misplaced_ge_exists v pivot f
          (by rw [← hK]; exact hj) hcl
        rw [← hm] at hi
        have hji : lf i = j := by rw [hLval i hi]; exact hvi
        rw [← hji, hw]
        have heff := cyclicLoop_left v hnd hbnd (i := i) (by rw [hn]; exact hi)
        rw [heff, hRval i hi]
        have hmem := getD_mem_of_lt (L := ltIdxList v pivot f) (i := K - 1 - i)
          (by rw [← hK]; omega)
        exact (mem_ltIdxList hmem).2
      · have hnb : f (vget v j) pivot = true := by
          cases hb : f (vget v j) pivot
          · exact absurd hb hcl
          · rfl
        have huntouched : vget w j = vget v j := by
          rw [hw]
          apply cyclicLoop_untouched
          intro i hi
          rw [hn] at hi
          constructor
          · intro heq
            rw [hLval i hi] at heq
            have hmemj := getD_mem_of_lt (L := geIdxList v pivot f) (i := i) (by omega)
            rw [← heq] at hmemj
            have hco := (mem_geIdxList hmemj).2
            rw [hnb] at hco
            exact Bool.noConfusion hco
          · have := hRge i hi
            omega
        rw [huntouched]
        exact hnb
    have hBb : ∀ j, K ≤ j → j < v.length → f (vget w j) pivot = false := by
      intro j h1 h2
      by_cases hcl : f (vget v j) pivot = true
      · obtain ⟨i, hi, hvi⟩ := misplaced_lt_exists v pivot f
          (by rw [← hK]; exact h1) h2 hcl
        rw [← hm] at hi
        rw [← hK] at hvi
        have hji : rf i = j := by rw [hRval i hi]; exact hvi
        rw [← hji, hw]
        have heff := cyclicLoop_right v hnd hbnd (i := i) (by rw [hn]; exact hi)
        rw [heff, hn]
        have hi2m : (i + 1) % m < m := Nat.mod_lt _ (by omega)
        rw [hLval _ hi2m]
        have hmem := getD_mem_of_lt (L := geIdxList v pivot f)
          (i := (i + 1) % m) (by omega)
        exact (mem_geIdxList hmem).2
      · have hnb : f (vget v j) pivot = false := by
          cases hb : f (vget v j) pivot
          · rfl
          · exact absurd hb hcl
        have huntouched : vget w j = vget v j := by
          rw [hw]
          apply cyclicLoop_untouched
          intro i hi
          rw [hn] at hi
          constructor
          · have := hLlt i hi
            omega
          · intro heq
            rw [hRval i hi] at heq
            have hmemj := getD_mem_of_lt (L := ltIdxList v pivot f)
              (i := K - 1 - i) (by rw [← hK]; omega)
            rw [← heq] at hmemj
            have hco := (mem_ltIdxList hmemj).2
            rw [hnb] at hco
            exact Bool.noConfusion hco
        rw [huntouched]
        exact hnb
    exact ⟨hlen_w, hmul, hAa, hBb⟩

/-- Functional correctness of small_partition_move_opt under a pure
comparison, for any garbage contents of the two index buffers. -/
theorem smallPartitionMoveOpt_correct (g1 g2 : Nat → Nat) (v : List α) (pivot : α)
    (f : α → α → Bool) (hlen : v.length < MAX_SMALL_PARTITION_LEN) :
    ∃ moves w,
      smallPartitionMoveOpt g1 g2 v pivot (pureLess f) =
        (some ((ltIdxList v pivot f).length, moves), w) ∧
      w.length = v.length ∧
      ((w : List α) : Multiset α) = (v : Multiset α) ∧
      (∀ j < (ltIdxList v pivot f).length, f (vget w j) pivot = true) ∧
      (∀ j, (ltIdxList v pivot f).length ≤ j → j < v.length →
        f (vget w j) pivot = false) := by
  obtain ⟨c1, c2, c3, c4⟩ := moveScan_foldl_inv v pivot f
    ⟨fun j => g1 j % 256, fun j => g2 j % 256, 0⟩ rfl v.length (le_refl _)
  have e1 : (List.range v.length).filter (fun i => !(f (vget v i) pivot)) =
      geIdxList v pivot f := rfl
  have e2 : (List.range v.length).filter (fun i => f (vget v i) pivot) =
      ltIdxList v pivot f := rfl
  rw [e1] at c1 c2 c3
  rw [e2] at c4
  set stv := (List.range v.length).foldl (moveScanStepP v pivot f v.length)
    ⟨fun j => g1 j % 256, fun j => g2 j % 256, 0⟩ with hst
  obtain ⟨p1, p2, p3, p4⟩ := moveOpt_cyclic_correct v pivot f stv c1 c2 c3 c4
  have hkc : v.length - stv.geCount = (ltIdxList v pivot f).length := by
    rw [c1]
    have := ltIdxList_length_add v pivot f
    omega
  refine ⟨(cyclicPermutationSwapLoop
      (fun i => decide (i < (v.length - stv.geCount)) &&
        decide (stv.geBuf i < (v.length - stv.geCount)))
      (fun i => stv.geBuf i) (fun i => stv.ltBuf (stv.geCount + i))
      (v.length - stv.geCount) v).2,
    (cyclicPermutationSwapLoop
      (fun i => decide (i < (v.length - stv.geCount)) &&
        decide (stv.geBuf i < (v.length - stv.geCount)))
      (fun i => stv.geBuf i) (fun i => stv.ltBuf (stv.geCount + i))
      (v.length - stv.geCount) v).1, ?_, p1, p2, p3, p4⟩
  rw [smallPartitionMoveOpt_run g1 g2 v pivot f hlen, ← hkc]

end MoveOptCorrect

/-! small_partition_int_opt: the manually unrolled pair loop plus tail
executes the loop body once per index, in order. -/

section IntOptCorrect

variable {α : Type} [Inhabited α]

theorem intBody_pure (doubleStore : Bool) (len : Nat) (v : List α) (pivot : α)
    (f : α → α → Bool) (st : IntScanState α) (i : Nat) :
    intBody doubleStore len v pivot (pureLess f) st i =
      some (intBodyP doubleStore len v pivot f st i) :=
  rfl

theorem intRun_eq (doubleStore : Bool) (len : Nat) (v : List α) (pivot : α)
    (less : α → α → Option Bool) :
    ∀ d i (st : IntScanState α), i ≤ len → len - i = d →
      (match intPairs doubleStore len v pivot less (len - 1) i st with
       | none => none
       | some (st2, i2) =>
         if i2 ≠ len then intBody doubleStore len v pivot less st2 i2 else some st2) =
      (List.range' i (len - i)).foldlM (intBody doubleStore len v pivot less) st := by
  intro d
  induction d using Nat.strong_induction_on with
  | _ d ih =>
    intro i st hi hd
    by_cases hlt : i < len - 1
    · rw [intPairs, dif_pos hlt]
      have hr2 : List.range' i ((len - i - 2) + 2) =
          i :: (i + 1) :: List.range' (i + 2) (len - i - 2) := by
        rw [show (len - i - 2) + 2 = ((len - i - 2) + 1) + 1 from rfl,
          List.range'_succ, List.range'_succ]
      rw [show len - i = (len - i - 2) + 2 by omega, hr2, List.foldlM_cons]
      cases hb : intBody doubleStore len v pivot less st i with
      | none => simp [hb]
      | some st1 =>
        simp only [Option.bind_eq_bind, Option.some_bind]
        rw [List.foldlM_cons]
        cases hb2 : intBody doubleStore len v pivot less st1 (i + 1) with
        | none => simp
        | some st2 =>
          simp only [Option.bind_eq_bind, Option.some_bind]
          have hih := ih (len - (i + 2)) (by omega) (i + 2) st2 (by omega) rfl
          rw [show len - i - 2 = len - (i + 2) by omega]
          exact hih
    · rw [intPairs, dif_neg hlt]
      by_cases hieq : i = len
      · subst hieq
        simp
      · have hlen1 : len - i = 1 := by omega
        rw [hlen1]
        show (if i ≠ len then intBody doubleStore len v pivot less st i else some st) =
          List.foldlM (intBody doubleStore len v pivot less) st (List.range' i 1)
        rw [if_pos hieq, List.range'_succ, List.foldlM_cons]
        simp

theorem smallPartitionIntOpt_run (g : Nat → α) (doubleStore : Bool) (v : List α)
    (pivot : α) (f : α → α → Bool) (hlen : v.length < MAX_SMALL_PARTITION_LEN) :
    smallPartitionIntOpt g doubleStore v pivot (pureLess f) =
      (some ((List.range v.length).foldl (intBodyP doubleStore v.length v pivot f)
          ⟨g, 0⟩).ltCount,
        (List.range v.length).map
          ((List.range v.length).foldl (intBodyP doubleStore v.length v pivot f)
            ⟨g, 0⟩).scratch) := by
  have hcomp := intRun_eq doubleStore v.length v pivot (pureLess f)
    (v.length - 0) 0 ⟨g, 0⟩ (by omega) rfl
  rw [foldlM_option_pure _ _ (intBody_pure doubleStore v.length v pivot f)] at hcomp
  rw [show List.range' 0 (v.length - 0) = List.range v.length by
    rw [List.range_eq_range']
    congr 1] at hcomp
  unfold smallPartitionIntOpt
  rw [if_neg (by omega)]
  cases hp : intPairs doubleStore v.length v pivot (pureLess f) (v.length - 1) 0 ⟨g, 0⟩ with
  | none =>
    rw [hp] at hcomp
    simp at hcomp
  | some sti =>
    obtain ⟨st2, i2⟩ := sti
    rw [hp] at hcomp
    simp only at hcomp
    show (match (if i2 ≠ v.length then
        intBody doubleStore v.length v pivot (pureLess f) st2 i2 else some st2) with
      | none => ((none : Option Nat), v)
      | some stf => (some stf.ltCount, (List.range v.length).map stf.scratch)) = _
    by_cases hieq : i2 ≠ v.length
    · rw [if_pos hieq] at hcomp
      rw [if_pos hieq, hcomp]
    · rw [if_neg hieq] at hcomp
      rw [if_neg hieq]
      rw [Option.some.inj hcomp]

/-- The int_opt scratch invariant after scanning the first `n` elements:
`lt_count` counts the less-than prefix elements, the bottom of the
scratch buffer holds them in scan order, and the top holds the
greater-or-equal ones in reverse scan order; every stale double store
has been overwritten by the time it could be observed. -/
theorem intScan_inv (doubleStore : Bool) (v : List α) (pivot : α) (f : α → α → Bool)
    (g : Nat → α) (n : Nat) (hn : n ≤ v.length) :
    (((List.range n).foldl (intBodyP doubleStore v.length v pivot f) ⟨g, 0⟩).ltCount =
      ((v.take n).filter (fun x => f x pivot)).length) ∧
    (∀ t < ((v.take n).filter (fun x => f x pivot)).length,
      ((List.range n).foldl (intBodyP doubleStore v.length v pivot f) ⟨g, 0⟩).scratch t =
        ((v.take n).filter (fun x => f x pivot)).getD t default) ∧
    (∀ s < ((v.take n).filter (fun x => !(f x pivot))).length,
      ((List.range n).foldl (intBodyP doubleStore v.length v pivot f) ⟨g, 0⟩).scratch
          (v.length - 1 - s) =
        ((v.take n).filter (fun x => !(f x pivot))).getD s default) := by
  induction n with
  | zero => simp
  | succ n ih =>
    obtain ⟨ih1, ih2, ih3⟩ := ih (by omega)
    have hnv : n < v.length := by omega
    have hvg : vget v n = v[n] := by rw [vget, List.getD_eq_getElem _ _ hnv]
    have htake : v.take (n + 1) = v.take n ++ [v[n]] := by
      rw [List.take_succ, List.getElem?_eq_getElem hnv]
      rfl
    have hfold : (List.range (n + 1)).foldl (intBodyP doubleStore v.length v pivot f)
        ⟨g, 0⟩ = intBodyP doubleStore v.length v pivot f
          ((List.range n).foldl (intBodyP doubleStore v.length v pivot f) ⟨g, 0⟩) n := by
      rw [List.range_succ, List.foldl_append]
      rfl
    set st := (List.range n).foldl (intBodyP doubleStore v.length v pivot f) ⟨g, 0⟩
      with hst
    set ltP := (v.take n).filter (fun x => f x pivot) with hltP
    set geP := (v.take n).filter (fun x => !(f x pivot)) with hgeP
    have hltP' : (v.take (n + 1)).filter (fun x => f x pivot) =
        ltP ++ (if f v[n] pivot then [v[n]] else []) := by
      rw [htake, List.filter_append]
      congr 1
      by_cases hf : f v[n] pivot <;> simp [hf]
    have hgeP' : (v.take (n + 1)).filter (fun x => !(f x pivot)) =
        geP ++ (if f v[n] pivot then [] else [v[n]]) := by
      rw [htake, List.filter_append]
      congr 1
      by_cases hf : f v[n] pivot <;> simp [hf]
    have hsum : ltP.length + geP.length = n := by
      have hp := length_filter_not_add (fun x => f x pivot) (v.take n)
      rw [List.length_take] at hp
      rw [hltP, hgeP]
      omega
    have hsc : (intBodyP doubleStore v.length v pivot f st n).scratch =
        if doubleStore then
          bufSet (bufSet st.scratch st.ltCount (vget v n))
            ((v.length - 1 - n) + st.ltCount) (vget v n)
        else
          bufSet st.scratch
            ((if f (vget v n) pivot then 0 else v.length - 1 - n) + st.ltCount)
            (vget v n) := rfl
    have hlc : (intBodyP doubleStore v.length v pivot f st n).ltCount =
        st.ltCount + (if f (vget v n) pivot then 1 else 0) := rfl
    refine ⟨?_, ?_, ?_⟩
    · rw [hfold, hlc, hltP', ih1, hvg]
      by_cases hf : f v[n] pivot <;> simp [hf]
    · intro t ht
      by_cases hf : f v[n] pivot
      · have hltP2 : (v.take (n + 1)).filter (fun x => f x pivot) = ltP ++ [v[n]] := by
          rw [hltP', if_pos hf]
        rw [hltP2] at ht ⊢
        rw [hfold, hsc, ih1, hvg, if_pos hf]
        simp only [List.length_append, List.length_cons, List.length_nil] at ht
        by_cases ht2 : t < ltP.length
        · rw [List.getD_append _ _ _ _ ht2]
          by_cases hdbl : doubleStore
          · rw [if_pos hdbl, bufSet_other _ _ _ _ (by omega),
              bufSet_other _ _ _ _ (by omega)]
            exact ih2 t ht2
          · rw [if_neg hdbl, bufSet_other _ _ _ _ (by omega)]
            exact ih2 t ht2
        · have hteq : t = ltP.length := by omega
          subst hteq
          rw [getD_concat_self]
          by_cases hdbl : doubleStore
          · rw [if_pos hdbl]
            exact bufSet2_hit _ _ _ _ _ (Or.inl rfl)
          · rw [if_neg hdbl]
            exact bufSet_hit _ _ _ _ (by omega)
      · have hltP2 : (v.take (n + 1)).filter (fun x => f x pivot) = ltP := by
          rw [hltP', if_neg hf, List.append_nil]
        rw [hltP2] at ht ⊢
        rw [hfold, hsc, ih1, hvg, if_neg hf]
        by_cases hdbl : doubleStore
        · rw [if_pos hdbl, bufSet_other _ _ _ _ (by omega),
            bufSet_other _ _ _ _ (by omega)]
          exact ih2 t ht
        · rw [if_neg hdbl, bufSet_other _ _ _ _ (by omega)]
          exact ih2 t ht
    · intro s hs
      by_cases hf : f v[n] pivot
      · have hgeP2 : (v.take (n + 1)).filter (fun x => !(f x pivot)) = geP := by
          rw [hgeP', if_pos hf, List.append_nil]
        rw [hgeP2] at hs ⊢
        rw [hfold, hsc, ih1, hvg, if_pos hf]
        by_cases hdbl : doubleStore
        · rw [if_pos hdbl, bufSet_other _ _ _ _ (by omega),
            bufSet_other _ _ _ _ (by omega)]
          exact ih3 s hs
        · rw [if_neg hdbl, bufSet_other _ _ _ _ (by omega)]
          exact ih3 s hs
      · have hgeP2 : (v.take (n + 1)).filter (fun x => !(f x pivot)) = geP ++ [v[n]] := by
          rw [hgeP', if_neg hf]
        rw [hgeP2] at hs ⊢
        rw [hfold, hsc, ih1, hvg, if_neg hf]
        simp only [List.length_append, List.length_cons, List.length_nil] at hs
        by_cases hs2 : s < geP.length
        · rw [List.getD_append _ _ _ _ hs2]
          by_cases hdbl : doubleStore
          · rw [if_pos hdbl, bufSet_other _ _ _ _ (by omega),
              bufSet_other _ _ _ _ (by omega)]
            exact ih3 s hs2
          · rw [if_neg hdbl, bufSet_other _ _ _ _ (by omega)]
            exact ih3 s hs2
        · have hseq : s = geP.length := by omega
          subst hseq
          rw [getD_concat_self]
          by_cases hdbl : doubleStore
          · rw [if_pos hdbl]
            exact bufSet2_hit _ _ _ _ _ (Or.inr (by omega))
          · rw [if_neg hdbl]
            exact bufSet_hit _ _ _ _ (by omega)

/-- Closed form of small_partition_int_opt under a pure comparison: the
copied-back sequence is the less-than elements in scan order followed by
the greater-or-equal elements in reverse scan order, and the count is
the number of less-than elements.  The result does not depend on the
scratch garbage. -/
theorem smallPartitionIntOpt_correct (g : Nat → α) (doubleStore : Bool) (v : List α)
    (pivot : α) (f : α → α → Bool) (hlen : v.length < MAX_SMALL_PARTITION_LEN) :
    smallPartitionIntOpt g doubleStore v pivot (pureLess f) =
      (some ((v.filter (fun x => f x pivot)).length),
        v.filter (fun x => f x pivot) ++ (v.filter (fun x => !(f x pivot))).reverse) := by
  obtain ⟨c1, c2, c3⟩ := intScan_inv doubleStore v pivot f g v.length (le_refl _)
  simp only [List.take_length] at c1 c2 c3
  rw [smallPartitionIntOpt_run g doubleStore v pivot f hlen]
  have hsum := length_filter_not_add (fun x => f x pivot) v
  refine Prod.ext ?_ ?_
  · simp only []
    rw [c1]
  · simp only []
    apply List.ext_getElem
    · simp only [List.length_map, List.length_range, List.length_append,
        List.length_reverse]
      omega
    · intro p h1 h2
      simp only [List.length_map, List.length_range] at h1
      rw [List.getElem_map, List.getElem_range]
      by_cases hp : p < (v.filter (fun x => f x pivot)).length
      · have hc2 := c2 p hp
        rw [List.getD_eq_getElem _ _ hp] at hc2
        rw [hc2, List.getElem_append, dif_pos hp]
      · have hs : v.length - 1 - p < (v.filter (fun x => !(f x pivot))).length := by
          omega
        have hc3 := c3 (v.length - 1 - p) hs
        have hpos : v.length - 1 - (v.length - 1 - p) = p := by omega
        rw [hpos] at hc3
        rw [List.getD_eq_getElem _ _ hs] at hc3
        rw [hc3, List.getElem_append, dif_neg hp, List.getElem_reverse]
        congr 1
        omega

/-- Whatever the comparison does, small_partition_int_opt either leaves
the sequence untouched or returns normally. -/
theorem smallPartitionIntOpt_cases (g : Nat → α) (doubleStore : Bool) (v : List α)
    (pivot : α) (less : α → α → Option Bool) :
    (smallPartitionIntOpt g doubleStore v pivot less).2 = v ∨
    (∃ k w, smallPartitionIntOpt g doubleStore v pivot less = (some k, w)) := by
  simp only [smallPartitionIntOpt]
  split
  · right
    exact ⟨0, v, rfl⟩
  · split
    · left
      rfl
    · split
      · left
        rfl
      · right
        exact ⟨_, _, rfl⟩

/-- Abort safety of the scratch strategy: when the comparison aborts, the
sequence is byte-for-byte the original — the loop wrote only the scratch
buffer and the copy-back never ran. -/
theorem smallPartitionIntOpt_abort (g : Nat → α) (doubleStore : Bool) (v : List α)
    (pivot : α) (less : α → α → Option Bool)
    (h : (smallPartitionIntOpt g doubleStore v pivot less).1 = none) :
    (smallPartitionIntOpt g doubleStore v pivot less).2 = v := by
  rcases smallPartitionIntOpt_cases g doubleStore v pivot less with hc | ⟨k, w, hc⟩
  · exact hc
  · rw [hc] at h
    simp at h

/-- The int strategy never changes the sequence length (normal or
aborting return, any comparison). -/
theorem smallPartitionIntOpt_length (g : Nat → α) (doubleStore : Bool) (v : List α)
    (pivot : α) (less : α → α → Option Bool) :
    (smallPartitionIntOpt g doubleStore v pivot less).2.length = v.length := by
  simp only [smallPartitionIntOpt]
  split
  · rfl
  · split
    · rfl
    · split
      · rfl
      · simp

/-- The move strategy never changes the sequence length (normal or
aborting return, any comparison). -/
theorem smallPartitionMoveOpt_length (g1 g2 : Nat → Nat) (v : List α)
    (pivot : α) (less : α → α → Option Bool) :
    (smallPartitionMoveOpt g1 g2 v pivot less).2.length = v.length := by
  simp only [smallPartitionMoveOpt]
  split
  · rfl
  · split
    · rfl
    · simp only []
      exact cyclicLoop_fst_length _ _ _ _ _

/-- Reading the elements at the filtered index positions recovers the
filtered list itself. -/
theorem filter_range_map (v : List α) (p : α → Bool) :
    ((List.range v.length).filter (fun i => p (vget v i))).map (fun i => vget v i) =
      v.filter p := by
  induction v with
  | nil => rfl
  | cons a t ih =>
    have hq : (fun i => p (vget (a :: t) i)) ∘ Nat.succ = fun i => p (vget t i) := rfl
    have hg : (fun i => vget (a :: t) i) ∘ Nat.succ = fun i => vget t i := rfl
    have h0 : vget (a :: t) 0 = a := rfl
    rw [List.length_cons, List.range_succ_eq_map]
    simp only [List.filter_cons, List.filter_map, hq, h0]
    by_cases hpa : p a = true
    · rw [if_pos hpa, if_pos hpa, List.map_cons, List.map_map, hg, ih, h0]
    · rw [if_neg hpa, if_neg hpa, List.map_map, hg, ih]

/-- The number of indices whose element compares less equals the length of
the filtered element list. -/
theorem ltIdxList_length_filter (v : List α) (pivot : α) (f : α → α → Bool) :
    (ltIdxList v pivot f).length = (v.filter (fun x => f x pivot)).length := by
  have h := congrArg List.length (filter_range_map v (fun x => f x pivot))
  rw [List.length_map] at h
  exact h

end IntOptCorrect

/-! What the two offset-fill passes produce: each emits, as `some`, the
offsets of the selected elements of the 32-element block, as a filter of a
fixed traversal order (ascending `0..31` for the up pass, the interleaved
`downIdx` order for the down pass). -/

section FillSpec

variable {α : Type} [Inhabited α]

theorem filter_rev {β : Type} (l : List β) (p : β → Bool) :
    (l.filter p).reverse = (l.reverse).filter p :=
  (List.filter_reverse _ _).symm

theorem foldl_fillStepP (v : List α) (base : Nat) (sel : α → Bool) (uf df : Nat → Nat) :
    ∀ (is : List Nat) (st : List Nat × List Nat),
    is.foldl (fillStepP v base sel uf df) st =
      (st.1 ++ (is.map uf).filter (fun o => sel (vget v (base + o))),
       (((is.map df).filter (fun o => sel (vget v (base + o)))).reverse) ++ st.2) := by
  intro is
  induction is with
  | nil => intro st; simp
  | cons i is ih =>
    intro st
    rw [List.foldl_cons, ih]
    simp only [fillStepP, List.map_cons, List.filter_cons]
    by_cases h1 : sel (vget v (base + uf i)) = true <;>
      by_cases h2 : sel (vget v (base + df i)) = true <;>
        simp [h1, h2, List.append_assoc]

theorem fillUpStep_pure (v : List α) (base : Nat) (sel : α → Bool)
    (st : List Nat × List Nat) (i : Nat) :
    fillUpStep v base (fun x => some (sel x)) st i =
      some (fillStepP v base sel (fun j => j + BLOCK / 2)
        (fun j => BLOCK / 2 - 1 - j) st i) := rfl

theorem fillDownStep_pure (v : List α) (base : Nat) (sel : α → Bool) (sb : Nat)
    (st : List Nat × List Nat) (i : Nat) :
    fillDownStep v base (fun x => some (sel x)) sb st i =
      some (fillStepP v base sel (fun j => sb + (SUB_BLOCK / 2 - 1 - j))
        (fun j => sb + (SUB_BLOCK / 2 + j)) st i) := rfl

theorem fillUp_pure_char (v : List α) (base : Nat) (sel : α → Bool) :
    fillOffsetBlockUp v base (fun x => some (sel x)) =
      some ((List.range BLOCK).filter (fun o => sel (vget v (base + o)))) := by
  unfold fillOffsetBlockUp
  rw [foldlM_option_pure _ _ (fillUpStep_pure v base sel) _ _]
  simp only [Option.bind_eq_bind, Option.some_bind]
  rw [foldl_fillStepP]
  simp only [List.append_nil, List.nil_append]
  rw [show (List.range (BLOCK / 2)).map (fun j => BLOCK / 2 - 1 - j) =
      (List.range (BLOCK / 2)).reverse from by decide]
  rw [List.filter_reverse, List.reverse_reverse]
  rw [← List.filter_append]
  rw [show List.range (BLOCK / 2) ++ (List.range (BLOCK / 2)).map (fun j => j + BLOCK / 2) =
      List.range BLOCK from by decide]
  rfl

theorem fillDown_pure_char (v : List α) (base : Nat) (sel : α → Bool) :
    fillOffsetBlockDown v base (fun x => some (sel x)) =
      some (downIdx.filter (fun o => sel (vget v (base + o)))) := by
  unfold fillOffsetBlockDown
  rw [foldlM_option_pure _
    (fun st si => (List.range (SUB_BLOCK / 2)).foldl
      (fillStepP v base sel (fun j => si * SUB_BLOCK + (SUB_BLOCK / 2 - 1 - j))
        (fun j => si * SUB_BLOCK + (SUB_BLOCK / 2 + j))) st)
    (fun st si => foldlM_option_pure _ _
      (fillDownStep_pure v base sel (si * SUB_BLOCK)) _ _) _ _]
  simp only [Option.bind_eq_bind, Option.some_bind]
  rw [show (List.range (BLOCK / SUB_BLOCK)).reverse = [3, 2, 1, 0] from by decide]
  rw [List.foldl_cons, List.foldl_cons, List.foldl_cons, List.foldl_cons, List.foldl_nil]
  simp only [foldl_fillStepP]
  simp only [show (List.range (SUB_BLOCK / 2)).map
      (fun j => 3 * SUB_BLOCK + (SUB_BLOCK / 2 - 1 - j)) = [27, 26, 25, 24] from by decide,
    show (List.range (SUB_BLOCK / 2)).map
      (fun j => 3 * SUB_BLOCK + (SUB_BLOCK / 2 + j)) = [28, 29, 30, 31] from by decide,
    show (List.range (SUB_BLOCK / 2)).map
      (fun j => 2 * SUB_BLOCK + (SUB_BLOCK / 2 - 1 - j)) = [19, 18, 17, 16] from by decide,
    show (List.range (SUB_BLOCK / 2)).map
      (fun j => 2 * SUB_BLOCK + (SUB_BLOCK / 2 + j)) = [20, 21, 22, 23] from by decide,
    show (List.range (SUB_BLOCK / 2)).map
      (fun j => 1 * SUB_BLOCK + (SUB_BLOCK / 2 - 1 - j)) = [11, 10, 9, 8] from by decide,
    show (List.range (SUB_BLOCK / 2)).map
      (fun j => 1 * SUB_BLOCK + (SUB_BLOCK / 2 + j)) = [12, 13, 14, 15] from by decide,
    show (List.range (SUB_BLOCK / 2)).map
      (fun j => 0 * SUB_BLOCK + (SUB_BLOCK / 2 - 1 - j)) = [3, 2, 1, 0] from by decide,
    show (List.range (SUB_BLOCK / 2)).map
      (fun j => 0 * SUB_BLOCK + (SUB_BLOCK / 2 + j)) = [4, 5, 6, 7] from by decide]
  simp only [filter_rev,
    show ([28, 29, 30, 31] : List Nat).reverse = [31, 30, 29, 28] from by decide,
    show ([20, 21, 22, 23] : List Nat).reverse = [23, 22, 21, 20] from by decide,
    show ([12, 13, 14, 15] : List Nat).reverse = [15, 14, 13, 12] from by decide,
    show ([4, 5, 6, 7] : List Nat).reverse = [7, 6, 5, 4] from by decide]
  simp only [List.append_nil, List.nil_append, List.append_assoc, ← List.filter_append]
  simp only [List.cons_append, List.nil_append]
  rfl

theorem downIdx_nodup : downIdx.Nodup := by decide

theorem mem_downIdx (o : Nat) : o ∈ downIdx ↔ o < BLOCK := by
  constructor
  · intro h
    have hall : downIdx.all (fun x => decide (x < BLOCK)) = true := by decide
    exact of_decide_eq_true (List.all_eq_true.mp hall o h)
  · intro h
    have hall : (List.range BLOCK).all (fun x => decide (x ∈ downIdx)) = true := by decide
    exact of_decide_eq_true (List.all_eq_true.mp hall o (List.mem_range.mpr h))

end FillSpec

/-! Indexing across concatenations, takes and drops. -/

section Indexing

variable {α : Type} [Inhabited α]

theorem vget_append_left {A : List α} (B : List α) {t : Nat} (h : t < A.length) :
    vget (A ++ B) t = vget A t :=
  List.getD_append _ _ _ _ h

theorem vget_append_right {A : List α} (B : List α) {t : Nat} (h : A.length ≤ t) :
    vget (A ++ B) t = vget B (t - A.length) :=
  List.getD_append_right _ _ _ _ h

theorem vget_take {v : List α} {n t : Nat} (h : t < n) :
    vget (v.take n) t = vget v t := by
  simp only [vget, List.getD_eq_getElem?_getD, List.getElem?_take, if_pos h]

theorem vget_drop (v : List α) (n t : Nat) :
    vget (v.drop n) t = vget v (n + t) := by
  simp only [vget, List.getD_eq_getElem?_getD, List.getElem?_drop]

end Indexing

/-!
block_partition: geometry of the cursors and preservation of the sequence
length, for an arbitrary (possibly aborting, possibly inconsistent)
comparison.
-/

section BlockShape

variable {α : Type} [Inhabited α]
variable {pivot : α} {less : α → α → Option Bool}

theorem blockIter_shape {st st' : BlockState α}
    (hit : blockIter pivot less st = some st') (hguard : st.l + BLOCK ≤ st.r) :
    st'.v.length = st.v.length ∧ st.l ≤ st'.l ∧ st'.r ≤ st.r ∧
    st'.l ≤ st'.r + BLOCK ∧ st'.r + BLOCK + st.l ≤ st'.l + st.r := by
  have hB : BLOCK = 32 := rfl
  simp only [blockIter, Option.bind_eq_bind] at hit
  split at hit <;> split at hit <;>
  · rcases Option.bind_eq_some.mp hit with ⟨lbufF, hlf, hit2⟩
    rcases Option.bind_eq_some.mp hit2 with ⟨rbufF, hrf, hit3⟩
    simp only [Option.pure_def, Option.some.injEq] at hit3
    have hone : lbufF.drop (min lbufF.length rbufF.length) = [] ∨
        rbufF.drop (min lbufF.length rbufF.length) = [] := by
      rcases Nat.le_total lbufF.length rbufF.length with hle | hle
      · exact Or.inl (List.drop_eq_nil_of_le (by omega))
      · exact Or.inr (List.drop_eq_nil_of_le (by omega))
    have hor : (lbufF.drop (min lbufF.length rbufF.length)).isEmpty = true ∨
        (rbufF.drop (min lbufF.length rbufF.length)).isEmpty = true := by
      rcases hone with h | h
      · exact Or.inl (by rw [h]; rfl)
      · exact Or.inr (by rw [h]; rfl)
    subst hit3
    have hv : (cyclicPermutationSwapLoop
        (fun i => decide (i < min lbufF.length rbufF.length))
        (fun i => st.l + lbufF.getD i 0) (fun i => st.r + rbufF.getD i 0)
        (min lbufF.length rbufF.length) st.v).1.length = st.v.length :=
      cyclicLoop_fst_length _ _ _ _ _
    refine ⟨hv, ?_, ?_, ?_, ?_⟩ <;>
    · simp only []
      by_cases he1 : (lbufF.drop (min lbufF.length rbufF.length)).isEmpty = true <;>
        by_cases he2 : (rbufF.drop (min lbufF.length rbufF.length)).isEmpty = true <;>
          first
          | exact absurd (hor.resolve_left he1) he2
          | simp only [he1, he2, Bool.false_eq_true, if_true, if_false]
            omega

theorem blockLoopGo_succ_eq (fuel : Nat) (st : BlockState α) :
    blockLoopGo pivot less (fuel + 1) st =
      if st.l + BLOCK ≤ st.r then
        match blockIter pivot less st with
        | none => .abortAt st.v
        | some st1 => blockLoopGo pivot less fuel st1
      else .done st := rfl

theorem blockLoopGo_zero_eq (st : BlockState α) :
    blockLoopGo pivot less 0 st =
      if st.l + BLOCK ≤ st.r then .fuelOut else .done st := rfl

theorem blockLoopGo_succ (fuel : Nat) (st : BlockState α)
    (hguard : st.l + BLOCK ≤ st.r) :
    blockLoopGo pivot less (fuel + 1) st =
      match blockIter pivot less st with
      | none => .abortAt st.v
      | some st1 => blockLoopGo pivot less fuel st1 := by
  rw [blockLoopGo_succ_eq, if_pos hguard]

theorem blockLoopGo_zero (st : BlockState α) (hguard : st.l + BLOCK ≤ st.r) :
    blockLoopGo pivot less 0 st = .fuelOut := by
  rw [blockLoopGo_zero_eq, if_pos hguard]

theorem blockLoopGo_exit (fuel : Nat) (st : BlockState α)
    (hguard : ¬(st.l + BLOCK ≤ st.r)) :
    blockLoopGo pivot less fuel st = .done st := by
  cases fuel with
  | zero => rw [blockLoopGo_zero_eq, if_neg hguard]
  | succ fuel => rw [blockLoopGo_succ_eq, if_neg hguard]

theorem blockLoopGo_shape (len : Nat) :
    ∀ (fuel : Nat) (st : BlockState α), st.v.length = len → st.l ≤ st.r + BLOCK →
      st.r + BLOCK ≤ len →
      (∀ w, blockLoopGo pivot less fuel st = .abortAt w → w.length = len) ∧
      (∀ st2, blockLoopGo pivot less fuel st = .done st2 →
        st2.v.length = len ∧ st2.l ≤ st2.r + BLOCK ∧ st2.r + BLOCK ≤ len) := by
  intro fuel
  induction fuel with
  | zero =>
    intro st h1 h2 h3
    by_cases hguard : st.l + BLOCK ≤ st.r
    · rw [blockLoopGo_zero st hguard]
      exact ⟨fun w hw => (by cases hw), fun st2 hw => (by cases hw)⟩
    · rw [blockLoopGo_exit 0 st hguard]
      refine ⟨fun w hw => (by cases hw), fun st2 hw => ?_⟩
      cases hw
      exact ⟨h1, h2, h3⟩
  | succ fuel ih =>
    intro st h1 h2 h3
    by_cases hguard : st.l + BLOCK ≤ st.r
    · rw [blockLoopGo_succ fuel st hguard]
      cases hbi : blockIter pivot less st with
      | none =>
        refine ⟨fun w hw => ?_, fun st2 hw => (by cases hw)⟩
        cases hw
        exact h1
      | some st1 =>
        obtain ⟨e1, e2, e3, e4, e5⟩ := blockIter_shape hbi hguard
        exact ih st1 (e1.trans h1) e4 (by omega)
    · rw [blockLoopGo_exit (fuel + 1) st hguard]
      refine ⟨fun w hw => (by cases hw), fun st2 hw => ?_⟩
      cases hw
      exact ⟨h1, h2, h3⟩

theorem blockPartition_shape (v : List α) (pivot : α) (less : α → α → Option Bool) :
    (∀ w, blockPartition v pivot less = .abortAt w → w.length = v.length) ∧
    (∀ w lo hi, blockPartition v pivot less = .ok w lo hi →
      w.length = v.length ∧ lo ≤ hi ∧ hi ≤ v.length) := by
  simp only [blockPartition]
  split
  · refine ⟨fun w hw => (by cases hw), fun w lo hi hok => ?_⟩
    cases hok
    exact ⟨rfl, by omega, le_refl _⟩
  case isFalse hge =>
    have hB : BLOCK = 32 := rfl
    have hM : MAX_SMALL_PARTITION_LEN = 256 := rfl
    obtain ⟨ha, hd⟩ := @blockLoopGo_shape α _ pivot less v.length
      v.length ⟨v, 0, v.length - BLOCK, [], []⟩ rfl (Nat.zero_le _)
      (show v.length - BLOCK + BLOCK ≤ v.length by omega)
    cases hloop : blockLoopGo pivot less v.length ⟨v, 0, v.length - BLOCK, [], []⟩ with
    | abortAt w0 =>
      refine ⟨fun w hw => ?_, fun w lo hi hok => (by cases hok)⟩
      cases hw
      exact ha w0 hloop
    | fuelOut =>
      exact ⟨fun w hw => (by cases hw), fun w lo hi hok => (by cases hok)⟩
    | done st2 =>
      refine ⟨fun w hw => (by cases hw), fun w lo hi hok => ?_⟩
      cases hok
      obtain ⟨k1, k2, k3⟩ := hd st2 hloop
      exact ⟨k1, by omega, k3⟩

theorem smallPartition_snd_length (useIntOpt doubleStore : Bool) (g1 g2 : Nat → Nat)
    (gInt : Nat → α) (v : List α) (pivot : α) (less : α → α → Option Bool) :
    (smallPartition useIntOpt doubleStore g1 g2 gInt v pivot less).2.length = v.length := by
  simp only [smallPartition]
  split
  · exact smallPartitionIntOpt_length _ _ _ _ _
  · exact smallPartitionMoveOpt_length _ _ _ _ _

theorem partitionRun_snd_length (useIntOpt doubleStore : Bool) (g1 g2 : Nat → Nat)
    (gInt : Nat → α) (v : List α) (pivot : α) (less : α → α → Option Bool) :
    (partitionRun useIntOpt doubleStore g1 g2 gInt v pivot less).2.length = v.length := by
  obtain ⟨ha, hok⟩ := blockPartition_shape v pivot less
  simp only [partitionRun]
  cases hbp : blockPartition v pivot less with
  | abortAt w => exact ha w hbp
  | fuelOut => rfl
  | ok w lo hi =>
    obtain ⟨hw, hlohi, hhile⟩ := hok w lo hi hbp
    have hres := smallPartition_snd_length useIntOpt doubleStore g1 g2 gInt
      ((w.drop lo).take (hi - lo)) pivot less
    simp only [List.length_take, List.length_drop] at hres
    simp only [List.length_append, List.length_take, List.length_drop, hres]
    omega

end BlockShape

/-!
block_partition with a pure comparison: each iteration returns, preserves
the invariant `BInv` and the element multiset, and shrinks the cursor gap
by at least a block.
-/

section BlockPure

variable {α : Type} [Inhabited α]

theorem passedFrom0_lt_self (k : Nat) :
    passedFrom0 (fun i => decide (i < k)) k = k :=
  passedFrom0_eq (le_refl k) (fun i hi => by simp [hi]) (by simp)

theorem blockIter_pure_eq (f : α → α → Bool) (pivot : α) (st : BlockState α) :
    blockIter pivot (pureLess f) st =
      some (
        let lbufF := if st.lbuf.isEmpty = true
          then (List.range BLOCK).filter (fun o => !(f (vget st.v (st.l + o)) pivot))
          else st.lbuf
        let rbufF := if st.rbuf.isEmpty = true
          then downIdx.filter (fun o => f (vget st.v (st.r + o)) pivot)
          else st.rbuf
        let k := min lbufF.length rbufF.length
        { v := (cyclicPermutationSwapLoop (fun i => decide (i < k))
              (fun i => st.l + lbufF.getD i 0) (fun i => st.r + rbufF.getD i 0)
              k st.v).1
          l := st.l + (if (lbufF.drop k).isEmpty = true then BLOCK else 0)
          r := st.r - (if (rbufF.drop k).isEmpty = true then BLOCK else 0)
          lbuf := lbufF.drop k
          rbuf := rbufF.drop k }) := by
  have hup : (fun elem => (pureLess f elem pivot).bind (fun b => pure (!b))) =
      (fun x => some (!(f x pivot))) := rfl
  have hup2 : (fun elem => (pureLess f elem pivot).bind (fun b => some (!b))) =
      (fun x => some (!(f x pivot))) := rfl
  have hdn : (fun elem => pureLess f elem pivot) =
      (fun x => some (f x pivot)) := rfl
  simp only [blockIter, Option.bind_eq_bind]
  by_cases hle : st.lbuf.isEmpty = true <;> by_cases hre : st.rbuf.isEmpty = true <;>
    simp only [hle, hre, Bool.false_eq_true, eq_self_iff_true, if_true, if_false,
      hup, hup2, hdn, fillUp_pure_char, fillDown_pure_char, Option.some_bind,
      Option.pure_def]

theorem mem_drop_iff_getD {L : List Nat} {k o : Nat} :
    o ∈ L.drop k ↔ ∃ j, k ≤ j ∧ j < L.length ∧ L.getD j 0 = o := by
  constructor
  · intro h
    obtain ⟨t, ht, hgd⟩ := List.mem_iff_getElem.mp h
    have hlen := List.length_drop k L
    refine ⟨k + t, by omega, by omega, ?_⟩
    calc L.getD (k + t) 0 = (L.drop k).getD t 0 := (vget_drop L k t).symm
      _ = o := by rw [List.getD_eq_getElem _ _ ht, hgd]
  · rintro ⟨j, hkj, hj, hgd⟩
    have h1 : (L.drop k).getD (j - k) 0 = o := by
      have h2 := vget_drop L k (j - k)
      rw [show k + (j - k) = j from by omega] at h2
      exact h2.trans hgd
    rw [← h1]
    exact getD_mem_of_lt (by rw [List.length_drop]; omega)

theorem blockStep_inv (f : α → α → Bool) (pivot : α) (len : Nat) (st : BlockState α)
    (lbufF rbufF : List Nat)
    (hguard : st.l + BLOCK ≤ st.r)
    (i1 : st.v.length = len) (i2 : st.r + BLOCK ≤ len)
    (i10 : ∀ q, q < st.l → f (vget st.v q) pivot = true)
    (i11 : ∀ q, st.r + BLOCK ≤ q → q < len → f (vget st.v q) pivot = false)
    (hLnd : lbufF.Nodup) (hRnd : rbufF.Nodup)
    (hLb : ∀ o ∈ lbufF, o < BLOCK) (hRb : ∀ o ∈ rbufF, o < BLOCK)
    (hLmem : ∀ o, o < BLOCK → (f (vget st.v (st.l + o)) pivot = false ↔ o ∈ lbufF))
    (hRmem : ∀ o, o < BLOCK → (f (vget st.v (st.r + o)) pivot = true ↔ o ∈ rbufF)) :
    BInv f pivot len
      { v := (cyclicPermutationSwapLoop
            (fun i => decide (i < min lbufF.length rbufF.length))
            (fun i => st.l + lbufF.getD i 0) (fun i => st.r + rbufF.getD i 0)
            (min lbufF.length rbufF.length) st.v).1
        l := st.l + (if (lbufF.drop (min lbufF.length rbufF.length)).isEmpty = true
          then BLOCK else 0)
        r := st.r - (if (rbufF.drop (min lbufF.length rbufF.length)).isEmpty = true
          then BLOCK else 0)
        lbuf := lbufF.drop (min lbufF.length rbufF.length)
        rbuf := rbufF.drop (min lbufF.length rbufF.length) } ∧
    (((cyclicPermutationSwapLoop (fun i => decide (i < min lbufF.length rbufF.length))
        (fun i => st.l + lbufF.getD i 0) (fun i => st.r + rbufF.getD i 0)
        (min lbufF.length rbufF.length) st.v).1 : List α) : Multiset α) =
      ((st.v : List α) : Multiset α) := by
  have hB : BLOCK = 32 := rfl
  set k := min lbufF.length rbufF.length with hk
  have hkl : k ≤ lbufF.length := Nat.min_le_left _ _
  have hkr : k ≤ rbufF.length := Nat.min_le_right _ _
  have hn : passedFrom0 (fun i => decide (i < k)) k = k := passedFrom0_lt_self k
  set V := (cyclicPermutationSwapLoop (fun i => decide (i < k))
      (fun i => st.l + lbufF.getD i 0) (fun i => st.r + rbufF.getD i 0) k st.v).1
    with hV
  have hvlen : V.length = st.v.length := cyclicLoop_fst_length _ _ _ _ _
  have hbound : ∀ q ∈ cyclePath (fun i => st.l + lbufF.getD i 0)
      (fun i => st.r + rbufF.getD i 0) (passedFrom0 (fun i => decide (i < k)) k),
      q < st.v.length := by
    rw [hn]
    intro q hq
    obtain ⟨i, hik, hq⟩ := mem_cyclePath.mp hq
    rcases hq with rfl | rfl
    · have h1 : lbufF.getD i 0 < BLOCK := hLb _ (getD_mem_of_lt (by omega))
      omega
    · have h1 : rbufF.getD i 0 < BLOCK := hRb _ (getD_mem_of_lt (by omega))
      omega
  have hpnd : (cyclePath (fun i => st.l + lbufF.getD i 0)
      (fun i => st.r + rbufF.getD i 0)
      (passedFrom0 (fun i => decide (i < k)) k)).Nodup := by
    rw [hn]
    apply cyclePath_nodup
    · intro i hi j hj he
      exact nodup_getD_inj hLnd (by omega) (by omega) (Nat.add_left_cancel he)
    · intro i hi j hj he
      exact nodup_getD_inj hRnd (by omega) (by omega) (Nat.add_left_cancel he)
    · intro i hi j hj
      have h1 : lbufF.getD i 0 < BLOCK := hLb _ (getD_mem_of_lt (by omega))
      omega
  have hmul : ((V : List α) : Multiset α) = ((st.v : List α) : Multiset α) :=
    cyclicLoop_multiset st.v hbound
  have hleft : ∀ i, i < k →
      vget V (st.l + lbufF.getD i 0) = vget st.v (st.r + rbufF.getD i 0) :=
    fun i hi => @cyclicLoop_left α _ (fun i => decide (i < k))
      (fun i => st.l + lbufF.getD i 0) (fun i => st.r + rbufF.getD i 0) k st.v
      hpnd hbound i (by rw [hn]; exact hi)
  have hright : ∀ i, i < k →
      vget V (st.r + rbufF.getD i 0) =
        vget st.v (st.l + lbufF.getD ((i + 1) % k) 0) := by
    intro i hi
    have h := @cyclicLoop_right α _ (fun i => decide (i < k))
      (fun i => st.l + lbufF.getD i 0) (fun i => st.r + rbufF.getD i 0) k st.v
      hpnd hbound i (by rw [hn]; exact hi)
    rw [hn] at h
    exact h
  have huntouched : ∀ q, (∀ i, i < k →
      q ≠ st.l + lbufF.getD i 0 ∧ q ≠ st.r + rbufF.getD i 0) →
      vget V q = vget st.v q :=
    fun q hq => @cyclicLoop_untouched α _ (fun i => decide (i < k))
      (fun i => st.l + lbufF.getD i 0) (fun i => st.r + rbufF.getD i 0) k st.v q
      (fun i hi => hq i (by rw [hn] at hi; exact hi))
  have hunL : ∀ o, o < BLOCK → (∀ i, i < k → lbufF.getD i 0 ≠ o) →
      vget V (st.l + o) = vget st.v (st.l + o) := by
    intro o ho hno
    apply huntouched
    intro i hi
    have hg := hno i hi
    have h2 : rbufF.getD i 0 < BLOCK := hRb _ (getD_mem_of_lt (by omega))
    constructor <;> omega
  have hunR : ∀ o, o < BLOCK → (∀ i, i < k → rbufF.getD i 0 ≠ o) →
      vget V (st.r + o) = vget st.v (st.r + o) := by
    intro o ho hno
    apply huntouched
    intro i hi
    have hg := hno i hi
    have h2 : lbufF.getD i 0 < BLOCK := hLb _ (getD_mem_of_lt (by omega))
    constructor <;> omega
  have hunOut : ∀ q, (q < st.l ∨ st.r + BLOCK ≤ q) → vget V q = vget st.v q := by
    intro q hq
    apply huntouched
    intro i hi
    have h1 : lbufF.getD i 0 < BLOCK := hLb _ (getD_mem_of_lt (by omega))
    have h2 : rbufF.getD i 0 < BLOCK := hRb _ (getD_mem_of_lt (by omega))
    constructor <;> omega
  have hposL : ∀ o, o < BLOCK →
      ((o ∈ lbufF.drop k → f (vget V (st.l + o)) pivot = false) ∧
       (o ∉ lbufF.drop k → f (vget V (st.l + o)) pivot = true)) := by
    intro o ho
    constructor
    · intro hoin
      obtain ⟨j, hkj, hj, hgd⟩ := mem_drop_iff_getD.mp hoin
      have huno : vget V (st.l + o) = vget st.v (st.l + o) := by
        apply hunL o ho
        intro i hi hgd2
        exact absurd (@nodup_getD_inj lbufF hLnd i j (by omega) hj
          (by rw [hgd2, hgd])) (by omega)
      rw [huno]
      exact (hLmem o ho).mpr (List.drop_subset _ _ hoin)
    · intro hnotin
      by_cases hin : o ∈ lbufF
      · obtain ⟨j, hj, hgd⟩ := exists_getD_of_mem hin
        have hjk : j < k := by
          by_contra hge
          exact hnotin (mem_drop_iff_getD.mpr ⟨j, by omega, hj, hgd⟩)
        have hval := hleft j hjk
        rw [hgd] at hval
        rw [hval]
        exact (hRmem _ (hRb _ (getD_mem_of_lt (by omega)))).mpr
          (getD_mem_of_lt (by omega))
      · have huno := hunL o ho
          (fun i hi hgd2 => hin (hgd2 ▸ getD_mem_of_lt (by omega)))
        rw [huno]
        rcases Bool.eq_false_or_eq_true (f (vget st.v (st.l + o)) pivot) with hf | hf
        · exact hf
        · exact absurd ((hLmem o ho).mp hf) hin

  have hposR : ∀ o, o < BLOCK →
      ((o ∈ rbufF.drop k → f (vget V (st.r + o)) pivot = true) ∧
       (o ∉ rbufF.drop k → f (vget V (st.r + o)) pivot = false)) := by
    intro o ho
    constructor
    · intro hoin
      obtain ⟨j, hkj, hj, hgd⟩ := mem_drop_iff_getD.mp hoin
      have huno : vget V (st.r + o) = vget st.v (st.r + o) := by
        apply hunR o ho
        intro i hi hgd2
        exact absurd (@nodup_getD_inj rbufF hRnd i j (by omega) hj
          (by rw [hgd2, hgd])) (by omega)
      rw [huno]
      exact (hRmem o ho).mpr (List.drop_subset _ _ hoin)
    · intro hnotin
      by_cases hin : o ∈ rbufF
      · obtain ⟨j, hj, hgd⟩ := exists_getD_of_mem hin
        have hjk : j < k := by
          by_contra hge
          exact hnotin (mem_drop_iff_getD.mpr ⟨j, by omega, hj, hgd⟩)
        have hval := hright j hjk
        rw [hgd] at hval
        rw [hval]
        have hmod : (j + 1) % k < k := Nat.mod_lt _ (by omega)
        exact (hLmem _ (hLb _ (getD_mem_of_lt (by omega)))).mpr
          (getD_mem_of_lt (by omega))
      · have huno := hunR o ho
          (fun i hi hgd2 => hin (hgd2 ▸ getD_mem_of_lt (by omega)))
        rw [huno]
        rcases Bool.eq_false_or_eq_true (f (vget st.v (st.r + o)) pivot) with hf | hf
        · exact absurd ((hRmem o ho).mp hf) hin
        · exact hf
  have hone : lbufF.drop k = [] ∨ rbufF.drop k = [] := by
    rcases Nat.le_total lbufF.length rbufF.length with hle | hle
    · exact Or.inl (List.drop_eq_nil_of_le (by omega))
    · exact Or.inr (List.drop_eq_nil_of_le (by omega))
  have hor : (lbufF.drop k).isEmpty = true ∨ (rbufF.drop k).isEmpty = true := by
    rcases hone with h | h
    · exact Or.inl (by rw [h]; rfl)
    · exact Or.inr (by rw [h]; rfl)
  refine ⟨⟨?_, ?_, ?_, ?_, ?_, ?_, ?_, ?_, ?_, ?_, ?_, ?_, ?_⟩, hmul⟩
  · exact hvlen.trans i1
  · simp only []
    split <;> omega
  · simp only []
    by_cases he1 : (lbufF.drop k).isEmpty = true <;>
      by_cases he2 : (rbufF.drop k).isEmpty = true <;>
        first
        | exact absurd (hor.resolve_left he1) he2
        | (simp only [he1, he2, Bool.false_eq_true, if_true, if_false]; omega)
  · intro hne
    simp only [] at hne ⊢
    have he1 : ¬((lbufF.drop k).isEmpty = true) := by
      simpa [List.isEmpty_iff] using hne
    by_cases he2 : (rbufF.drop k).isEmpty = true <;>
      simp only [he1, he2, Bool.false_eq_true, if_true, if_false] <;> omega
  · intro hne
    simp only [] at hne ⊢
    have he2 : ¬((rbufF.drop k).isEmpty = true) := by
      simpa [List.isEmpty_iff] using hne
    by_cases he1 : (lbufF.drop k).isEmpty = true <;>
      simp only [he1, he2, Bool.false_eq_true, if_true, if_false] <;> omega
  · exact hLnd.sublist (List.drop_sublist _ _)
  · exact hRnd.sublist (List.drop_sublist _ _)
  · exact fun o ho => hLb o (List.drop_subset _ _ ho)
  · exact fun o ho => hRb o (List.drop_subset _ _ ho)
  · simp only []
    intro q hq
    by_cases he1 : (lbufF.drop k).isEmpty = true
    · rw [if_pos he1] at hq
      by_cases hql : q < st.l
      · rw [hunOut q (Or.inl hql)]
        exact i10 q hql
      · have ho : q - st.l < BLOCK := by omega
        have hqe : q = st.l + (q - st.l) := by omega
        rw [hqe]
        refine (hposL _ ho).2 ?_
        rw [List.isEmpty_iff.mp he1]
        exact List.not_mem_nil _
    · rw [if_neg he1] at hq
      have hql : q < st.l := by omega
      rw [hunOut q (Or.inl hql)]
      exact i10 q hql
  · simp only []
    intro q hq hqlen
    by_cases he2 : (rbufF.drop k).isEmpty = true
    · rw [if_pos he2] at hq
      by_cases hqr : st.r + BLOCK ≤ q
      · rw [hunOut q (Or.inr hqr)]
        exact i11 q hqr hqlen
      · have ho : q - st.r < BLOCK := by omega
        have hqe : q = st.r + (q - st.r) := by omega
        have hqge : st.r ≤ q := by omega
        rw [hqe]
        refine (hposR _ ho).2 ?_
        rw [List.isEmpty_iff.mp he2]
        exact List.not_mem_nil _
    · rw [if_neg he2] at hq
      have hqr : st.r + BLOCK ≤ q := by omega
      rw [hunOut q (Or.inr hqr)]
      exact i11 q hqr hqlen
  · simp only []
    intro hne o ho
    have he1 : ¬((lbufF.drop k).isEmpty = true) := by
      simpa [List.isEmpty_iff] using hne
    rw [if_neg he1, Nat.add_zero]
    constructor
    · intro hf
      by_contra hno
      rw [(hposL o ho).2 hno] at hf
      cases hf
    · exact (hposL o ho).1
  · simp only []
    intro hne o ho
    have he2 : ¬((rbufF.drop k).isEmpty = true) := by
      simpa [List.isEmpty_iff] using hne
    rw [if_neg he2, Nat.sub_zero]
    constructor
    · intro hf
      by_contra hno
      rw [(hposR o ho).2 hno] at hf
      cases hf
    · exact (hposR o ho).1

theorem blockIter_pure_inv (f : α → α → Bool) (pivot : α) (len : Nat)
    (st : BlockState α) (hguard : st.l + BLOCK ≤ st.r) (hinv : BInv f pivot len st) :
    ∃ st', blockIter pivot (pureLess f) st = some st' ∧ BInv f pivot len st' ∧
      ((st'.v : List α) : Multiset α) = ((st.v : List α) : Multiset α) ∧
      st'.r + BLOCK + st.l ≤ st'.l + st.r := by
  obtain ⟨i1, i2, i3, i4, i5, i6, i7, i8, i9, i10, i11, i12, i13⟩ := hinv
  have hLndF : (if st.lbuf.isEmpty = true
      then (List.range BLOCK).filter (fun o => !(f (vget st.v (st.l + o)) pivot))
      else st.lbuf).Nodup := by
    split
    · exact (List.nodup_range _).filter _
    · exact i6
  have hRndF : (if st.rbuf.isEmpty = true
      then downIdx.filter (fun o => f (vget st.v (st.r + o)) pivot)
      else st.rbuf).Nodup := by
    split
    · exact downIdx_nodup.filter _
    · exact i7
  have hLbF : ∀ o ∈ (if st.lbuf.isEmpty = true
      then (List.range BLOCK).filter (fun o => !(f (vget st.v (st.l + o)) pivot))
      else st.lbuf), o < BLOCK := by
    split
    · intro o ho
      exact List.mem_range.mp (List.mem_filter.mp ho).1
    · exact i8
  have hRbF : ∀ o ∈ (if st.rbuf.isEmpty = true
      then downIdx.filter (fun o => f (vget st.v (st.r + o)) pivot)
      else st.rbuf), o < BLOCK := by
    split
    · intro o ho
      exact (mem_downIdx o).mp (List.mem_filter.mp ho).1
    · exact i9
  have hLmemF : ∀ o, o < BLOCK → (f (vget st.v (st.l + o)) pivot = false ↔
      o ∈ (if st.lbuf.isEmpty = true
        then (List.range BLOCK).filter (fun o => !(f (vget st.v (st.l + o)) pivot))
        else st.lbuf)) := by
    split
    case isTrue h =>
      intro o ho
      constructor
      · intro hf
        exact List.mem_filter.mpr ⟨List.mem_range.mpr ho, by rw [hf]; rfl⟩
      · intro hmem
        have h2 := (List.mem_filter.mp hmem).2
        simpa using h2
    case isFalse h =>
      exact i12 (by simpa [List.isEmpty_iff] using h)
  have hRmemF : ∀ o, o < BLOCK → (f (vget st.v (st.r + o)) pivot = true ↔
      o ∈ (if st.rbuf.isEmpty = true
        then downIdx.filter (fun o => f (vget st.v (st.r + o)) pivot)
        else st.rbuf)) := by
    split
    case isTrue h =>
      intro o ho
      constructor
      · intro hf
        exact List.mem_filter.mpr ⟨(mem_downIdx o).mpr ho, hf⟩
      · intro hmem
        exact (List.mem_filter.mp hmem).2
    case isFalse h =>
      exact i13 (by simpa [List.isEmpty_iff] using h)
  have heq := blockIter_pure_eq f pivot st
  have hs := blockIter_shape heq hguard
  have hstep := blockStep_inv f pivot len st _ _ hguard i1 i2 i10 i11
    hLndF hRndF hLbF hRbF hLmemF hRmemF
  exact ⟨_, heq, hstep.1, hstep.2, hs.2.2.2.2⟩

theorem blockLoopGo_pure (f : α → α → Bool) (pivot : α) (len : Nat) :
    ∀ (fuel : Nat) (st : BlockState α), BInv f pivot len st →
      st.r + BLOCK < st.l + (BLOCK * fuel + 2 * BLOCK) →
      ∃ st2, blockLoopGo pivot (pureLess f) fuel st = .done st2 ∧
        BInv f pivot len st2 ∧
        ((st2.v : List α) : Multiset α) = ((st.v : List α) : Multiset α) ∧
        st2.r < st2.l + BLOCK := by
  intro fuel
  induction fuel with
  | zero =>
    intro st hinv hfuel
    have hB : BLOCK = 32 := rfl
    have hguard : ¬(st.l + BLOCK ≤ st.r) := by omega
    exact ⟨st, blockLoopGo_exit 0 st hguard, hinv, rfl, by omega⟩
  | succ fuel ih =>
    intro st hinv hfuel
    have hB : BLOCK = 32 := rfl
    by_cases hguard : st.l + BLOCK ≤ st.r
    · obtain ⟨st1, heq, hinv1, hmul1, hmeas⟩ :=
        blockIter_pure_inv f pivot len st hguard hinv
      obtain ⟨st2, h1, h2, h3, h4⟩ := ih st1 hinv1
        (by rw [hB] at hfuel hmeas ⊢; omega)
      refine ⟨st2, ?_, h2, h3.trans hmul1, h4⟩
      rw [blockLoopGo_succ fuel st hguard, heq]
      exact h1
    · exact ⟨st, blockLoopGo_exit (fuel + 1) st hguard, hinv, rfl, by omega⟩

theorem blockPartition_pure (f : α → α → Bool) (pivot : α) (v : List α)
    (hlen : MAX_SMALL_PARTITION_LEN ≤ v.length) :
    ∃ w lo hi, blockPartition v pivot (pureLess f) = .ok w lo hi ∧
      w.length = v.length ∧
      ((w : List α) : Multiset α) = ((v : List α) : Multiset α) ∧
      lo ≤ hi ∧ hi ≤ v.length ∧ hi - lo < 2 * BLOCK ∧
      (∀ q, q < lo → f (vget w q) pivot = true) ∧
      (∀ q, hi ≤ q → q < v.length → f (vget w q) pivot = false) := by
  have hB : BLOCK = 32 := rfl
  have hM : MAX_SMALL_PARTITION_LEN = 256 := rfl
  have hinv0 : BInv f pivot v.length ⟨v, 0, v.length - BLOCK, [], []⟩ :=
    ⟨rfl, show v.length - BLOCK + BLOCK ≤ v.length by omega,
      show (0 : Nat) ≤ v.length - BLOCK + BLOCK from Nat.zero_le _,
      fun h => absurd rfl h, fun h => absurd rfl h,
      List.nodup_nil, List.nodup_nil,
      fun o ho => absurd ho (List.not_mem_nil o),
      fun o ho => absurd ho (List.not_mem_nil o),
      fun q hq => absurd hq (Nat.not_lt_zero q),
      fun q h1 h2 => absurd h2
        (by have h1x : v.length - BLOCK + BLOCK ≤ q := h1; omega),
      fun h => absurd rfl h, fun h => absurd rfl h⟩
  obtain ⟨st2, hdone, hinv2, hmul2, hexit⟩ := blockLoopGo_pure f pivot v.length
    v.length ⟨v, 0, v.length - BLOCK, [], []⟩ hinv0
    (show v.length - BLOCK + BLOCK < 0 + (BLOCK * v.length + 2 * BLOCK) by
      rw [hB]; omega)
  obtain ⟨j1, j2, j3, j4, j5, j6, j7, j8, j9, j10, j11, j12, j13⟩ := hinv2
  refine ⟨st2.v, st2.l, st2.r + BLOCK, ?_, j1, hmul2, j3, j2, by omega, j10, j11⟩
  simp only [blockPartition]
  rw [if_neg (by omega), hdone]

end BlockPure

/-!
The dispatched small_partition and the full partition under a pure
comparison: both strategies produce the same count, a permutation of the
input, and a correctly classified sequence.
-/

section PartitionCorrect

variable {α : Type} [Inhabited α]

theorem smallPartition_correct (useIntOpt doubleStore : Bool) (g1 g2 : Nat → Nat)
    (gInt : Nat → α) (v : List α) (pivot : α) (f : α → α → Bool)
    (hlen : v.length < MAX_SMALL_PARTITION_LEN) :
    ∃ w, smallPartition useIntOpt doubleStore g1 g2 gInt v pivot (pureLess f) =
        (some ((v.filter (fun x => f x pivot)).length), w) ∧
      w.length = v.length ∧
      ((w : List α) : Multiset α) = ((v : List α) : Multiset α) ∧
      (∀ j, j < (v.filter (fun x => f x pivot)).length → f (vget w j) pivot = true) ∧
      (∀ j, (v.filter (fun x => f x pivot)).length ≤ j → j < v.length →
        f (vget w j) pivot = false) := by
  have hsum := length_filter_not_add (fun x => f x pivot) v
  simp only [smallPartition]
  split
  case isTrue =>
    rw [smallPartitionIntOpt_correct gInt doubleStore v pivot f hlen]
    refine ⟨v.filter (fun x => f x pivot) ++ (v.filter (fun x => !(f x pivot))).reverse,
      rfl, ?_, ?_, ?_, ?_⟩
    · simp only [List.length_append, List.length_reverse]
      omega
    · have hp : (v.filter (fun x => f x pivot) ++
          (v.filter (fun x => !(f x pivot))).reverse).Perm v :=
        ((List.reverse_perm _).append_left _).trans (v.filter_append_perm _)
      exact Multiset.coe_eq_coe.mpr hp
    · intro j hj
      rw [vget_append_left _ hj]
      have hm : vget (v.filter (fun x => f x pivot)) j ∈ v.filter (fun x => f x pivot) :=
        vget_mem hj
      exact (List.mem_filter.mp hm).2
    · intro j hj1 hj2
      rw [vget_append_right _ hj1]
      have hlt : j - (v.filter (fun x => f x pivot)).length <
          ((v.filter (fun x => !(f x pivot))).reverse).length := by
        simp only [List.length_reverse]
        omega
      have hm := vget_mem hlt
      have hm2 := List.mem_reverse.mp hm
      have hmf := (List.mem_filter.mp hm2).2
      simpa using hmf
  case isFalse =>
    obtain ⟨moves, w, heq, hlen2, hmul, hlt, hge⟩ :=
      smallPartitionMoveOpt_correct g1 g2 v pivot f hlen
    rw [heq]
    have hk := ltIdxList_length_filter v pivot f
    refine ⟨w, ?_, hlen2, hmul, ?_, ?_⟩
    · rw [hk]
      rfl
    · intro j hj
      exact hlt j (by omega)
    · intro j h1 h2
      exact hge j (by omega) h2

theorem filter_eq_take_of_classified (W : List α) (p : α → Bool) (k : Nat)
    (hk : k ≤ W.length)
    (ha : ∀ j, j < k → p (vget W j) = true)
    (hb : ∀ j, k ≤ j → j < W.length → p (vget W j) = false) :
    W.filter p = W.take k := by
  conv_lhs => rw [← List.take_append_drop k W]
  rw [List.filter_append]
  have h1 : (W.take k).filter p = W.take k := by
    apply List.filter_eq_self.mpr
    intro a hmem
    obtain ⟨t, ht, hgd⟩ := List.mem_iff_getElem.mp hmem
    have htk : t < k := by
      have := List.length_take k W
      omega
    have h2 : vget (W.take k) t = a := by
      rw [vget, List.getD_eq_getElem _ _ ht, hgd]
    rw [← h2, vget_take htk]
    exact ha t htk
  have h2 : (W.drop k).filter p = [] := by
    apply List.filter_eq_nil_iff.mpr
    intro a hmem
    obtain ⟨t, ht, hgd⟩ := List.mem_iff_getElem.mp hmem
    have h3 : vget (W.drop k) t = a := by
      rw [vget, List.getD_eq_getElem _ _ ht, hgd]
    have h4 := vget_drop W k t
    have hlt : k + t < W.length := by
      have := List.length_drop k W
      omega
    rw [← h3, h4]
    simp [hb (k + t) (by omega) hlt]
  rw [h1, h2, List.append_nil]

theorem partitionRun_correct (useIntOpt doubleStore : Bool) (g1 g2 : Nat → Nat)
    (gInt : Nat → α) (v : List α) (pivot : α) (f : α → α → Bool) :
    ∃ k w, partitionRun useIntOpt doubleStore g1 g2 gInt v pivot (pureLess f) =
        (some k, w) ∧
      k = (v.filter (fun x => f x pivot)).length ∧
      w.length = v.length ∧
      ((w : List α) : Multiset α) = ((v : List α) : Multiset α) ∧
      (∀ j, j < k → f (vget w j) pivot = true) ∧
      (∀ j, k ≤ j → j < v.length → f (vget w j) pivot = false) ∧
      ((w.take k : List α) : Multiset α) =
        ((v.filter (fun x => f x pivot) : List α) : Multiset α) := by
  have hB : BLOCK = 32 := rfl
  have hM : MAX_SMALL_PARTITION_LEN = 256 := rfl
  have hblock : ∃ w0 lo hi, blockPartition v pivot (pureLess f) = .ok w0 lo hi ∧
      w0.length = v.length ∧
      ((w0 : List α) : Multiset α) = ((v : List α) : Multiset α) ∧
      lo ≤ hi ∧ hi ≤ v.length ∧ hi - lo < MAX_SMALL_PARTITION_LEN ∧
      (∀ q, q < lo → f (vget w0 q) pivot = true) ∧
      (∀ q, hi ≤ q → q < v.length → f (vget w0 q) pivot = false) := by
    by_cases hsmall : v.length < MAX_SMALL_PARTITION_LEN
    · refine ⟨v, 0, v.length, ?_, rfl, rfl, Nat.zero_le _, le_refl _, by omega,
        ?_, ?_⟩
      · simp only [blockPartition]
        rw [if_pos hsmall]
      · intro q hq
        exact absurd hq (Nat.not_lt_zero q)
      · intro q h1 h2
        exact absurd h2 (by omega)
    · obtain ⟨w0, lo, hi, hbp, h1, h2, h3, h4, h5, h6, h7⟩ :=
        blockPartition_pure f pivot v (by omega)
      exact ⟨w0, lo, hi, hbp, h1, h2, h3, h4, by omega, h6, h7⟩
  obtain ⟨w0, lo, hi, hbp, hw0len, hw0mul, hlohi, hhile, hresb, hpre, hsuf⟩ := hblock
  have hreslen : ((w0.drop lo).take (hi - lo)).length = hi - lo := by
    rw [List.length_take, List.length_drop]
    omega
  obtain ⟨w1, hseq, hw1len, hw1mul, hw1lt, hw1ge⟩ :=
    smallPartition_correct useIntOpt doubleStore g1 g2 gInt
      ((w0.drop lo).take (hi - lo)) pivot f (by omega)
  have hkresle : (((w0.drop lo).take (hi - lo)).filter (fun x => f x pivot)).length ≤
      hi - lo := by
    have := List.length_filter_le (fun x => f x pivot) ((w0.drop lo).take (hi - lo))
    omega
  have htakelen : (w0.take lo).length = lo := by
    rw [List.length_take]
    omega
  have hmidlen : (w0.take lo ++ w1).length = hi := by
    rw [List.length_append, htakelen, hw1len, hreslen]
    omega
  have hsplit : w0 = w0.take lo ++ (w0.drop lo).take (hi - lo) ++ w0.drop hi :=
    calc w0 = w0.take lo ++ w0.drop lo := (List.take_append_drop lo w0).symm
      _ = w0.take lo ++ ((w0.drop lo).take (hi - lo) ++ (w0.drop lo).drop (hi - lo)) :=
          by conv_rhs => rw [List.take_append_drop]
      _ = w0.take lo ++ (w0.drop lo).take (hi - lo) ++ w0.drop hi := by
          rw [List.drop_drop, show lo + (hi - lo) = hi from by omega,
            ← List.append_assoc]
  have hw1perm : w1.Perm ((w0.drop lo).take (hi - lo)) := Multiset.coe_eq_coe.mp hw1mul
  have hWperm : (w0.take lo ++ w1 ++ w0.drop hi).Perm w0 := by
    conv_rhs => rw [hsplit]
    exact (hw1perm.append_left _).append_right _
  have hWlen : (w0.take lo ++ w1 ++ w0.drop hi).length = v.length := by
    simp only [List.length_append, htakelen, hw1len, hreslen, List.length_drop]
    omega
  have hWmul : ((w0.take lo ++ w1 ++ w0.drop hi : List α) : Multiset α) =
      ((v : List α) : Multiset α) :=
    (Multiset.coe_eq_coe.mpr hWperm).trans hw0mul
  have hWpre : ∀ j, j < lo + (((w0.drop lo).take (hi - lo)).filter
      (fun x => f x pivot)).length →
      f (vget (w0.take lo ++ w1 ++ w0.drop hi) j) pivot = true := by
    intro j hj
    by_cases hjlo : j < lo
    · rw [vget_append_left _ (by rw [hmidlen]; omega),
        vget_append_left _ (by rw [htakelen]; omega), vget_take hjlo]
      exact hpre j hjlo
    · rw [vget_append_left _ (by rw [hmidlen]; omega),
        vget_append_right _ (by rw [htakelen]; omega), htakelen]
      exact hw1lt (j - lo) (by omega)
  have hWsuf : ∀ j, lo + (((w0.drop lo).take (hi - lo)).filter
      (fun x => f x pivot)).length ≤ j → j < v.length →
      f (vget (w0.take lo ++ w1 ++ w0.drop hi) j) pivot = false := by
    intro j h1 h2
    by_cases hjhi : j < hi
    · rw [vget_append_left _ (by rw [hmidlen]; omega),
        vget_append_right _ (by rw [htakelen]; omega), htakelen]
      exact hw1ge (j - lo) (by omega) (by rw [hreslen]; omega)
    · rw [vget_append_right _ (by rw [hmidlen]; omega), hmidlen, vget_drop,
        show hi + (j - hi) = j from by omega]
      exact hsuf j (by omega) h2
  refine ⟨lo + (((w0.drop lo).take (hi - lo)).filter (fun x => f x pivot)).length,
    w0.take lo ++ w1 ++ w0.drop hi, ?_, ?_, hWlen, hWmul, hWpre, hWsuf, ?_⟩
  · simp only [partitionRun, hbp]
    rw [hseq]
    rfl
  · -- the count equals the filtered length of the whole input
    have hfe := filter_eq_take_of_classified (w0.take lo ++ w1 ++ w0.drop hi)
      (fun x => f x pivot)
      (lo + (((w0.drop lo).take (hi - lo)).filter (fun x => f x pivot)).length)
      (by omega) hWpre (fun j h1 h2 => hWsuf j h1 (by omega))
    have hflen := congrArg List.length hfe
    have hfperm : ((w0.take lo ++ w1 ++ w0.drop hi).filter (fun x => f x pivot)).Perm
        (v.filter (fun x => f x pivot)) := hWperm.filter _ |>.trans
          ((Multiset.coe_eq_coe.mp hw0mul).filter _)
    have hfplen := hfperm.length_eq
    rw [hfe, List.length_take] at hfplen
    omega
  · -- take k is the filtered multiset
    have hfe := filter_eq_take_of_classified (w0.take lo ++ w1 ++ w0.drop hi)
      (fun x => f x pivot)
      (lo + (((w0.drop lo).take (hi - lo)).filter (fun x => f x pivot)).length)
      (by omega) hWpre (fun j h1 h2 => hWsuf j h1 (by omega))
    have hfperm : ((w0.take lo ++ w1 ++ w0.drop hi).filter (fun x => f x pivot)).Perm
        (v.filter (fun x => f x pivot)) := hWperm.filter _ |>.trans
          ((Multiset.coe_eq_coe.mp hw0mul).filter _)
    rw [← hfe]
    exact Multiset.coe_eq_coe.mpr hfperm

end PartitionCorrect

/-! The claims. -/

section Claims

variable {α : Type} [Inhabited α]

/-- C1: for every sequence, pivot and pure comparison that is a strict
total order (irreflexive, transitive, connected), partition returns a
count k such that every element of the result in `[0, k)` compares less
than the pivot, every element in `[k, len)` does not, and `[0, k)` holds
exactly the multiset of original elements judged less than the pivot
(`k` is their number).  This holds for both small-partition strategies
and for all scratch-buffer garbage. -/
theorem claim_C1_partition_correct (useIntOpt doubleStore : Bool) (g1 g2 : Nat → Nat)
    (gInt : Nat → α) (v : List α) (pivot : α) (f : α → α → Bool)
    (hirr : ∀ a, f a a = false)
    (htrans : ∀ a b c, f a b = true → f b c = true → f a c = true)
    (hconn : ∀ a b, f a b = false → f b a = false → a = b) :
    ∃ k w, partitionRun useIntOpt doubleStore g1 g2 gInt v pivot (pureLess f) =
        (some k, w) ∧
      k = (v.filter (fun x => f x pivot)).length ∧
      w.length = v.length ∧
      (∀ j, j < k → f (vget w j) pivot = true) ∧
      (∀ j, k ≤ j → j < v.length → f (vget w j) pivot = false) ∧
      ((w.take k : List α) : Multiset α) =
        ((v.filter (fun x => f x pivot) : List α) : Multiset α) := by
  obtain ⟨k, w, h1, h2, h3, _, h5, h6, h7⟩ :=
    partitionRun_correct useIntOpt doubleStore g1 g2 gInt v pivot f
  exact ⟨k, w, h1, h2, h3, h5, h6, h7⟩

/-- Witness for C1 at a concrete input: Nat with `<` is a strict total
order, and partition of `[3, 1, 2]` around pivot `2` satisfies the
specification. -/
theorem claim_C1_partition_correct_witness :
    (∀ a : Nat, decide (a < a) = false) ∧
    (∀ a b c : Nat, decide (a < b) = true → decide (b < c) = true →
      decide (a < c) = true) ∧
    (∀ a b : Nat, decide (a < b) = false → decide (b < a) = false → a = b) ∧
    (∃ k w, partitionRun false false (fun j => 0) (fun j => 0) (fun j => 0)
        [3, 1, 2] 2 (pureLess (fun a b : Nat => decide (a < b))) = (some k, w) ∧
      k = (([3, 1, 2] : List Nat).filter (fun x => decide (x < 2))).length ∧
      w.length = ([3, 1, 2] : List Nat).length ∧
      (∀ j, j < k → decide (vget w j < 2) = true) ∧
      (∀ j, k ≤ j → j < ([3, 1, 2] : List Nat).length →
        decide (vget w j < 2) = false) ∧
      ((w.take k : List Nat) : Multiset Nat) =
        ((([3, 1, 2] : List Nat).filter (fun x => decide (x < 2)) :
          List Nat) : Multiset Nat)) :=
  ⟨fun a => by simp,
   fun a b c h1 h2 => by simp at *; omega,
   fun a b h1 h2 => by simp at *; omega,
   claim_C1_partition_correct false false (fun j => 0) (fun j => 0) (fun j => 0)
     [3, 1, 2] 2 (fun a b => decide (a < b))
     (fun a => by simp)
     (fun a b c h1 h2 => by simp at *; omega)
     (fun a b h1 h2 => by simp at *; omega)⟩

/-- C2: for every input and every pure (hence non-aborting) comparison,
consistent or not, partition returns the input multiset unchanged — the
result is a pure permutation, no element duplicated or lost. -/
theorem claim_C2_multiset_preserved (useIntOpt doubleStore : Bool)
    (g1 g2 : Nat → Nat) (gInt : Nat → α) (v : List α) (pivot : α)
    (f : α → α → Bool) :
    (((partitionRun useIntOpt doubleStore g1 g2 gInt v pivot
        (pureLess f)).2 : List α) : Multiset α) = ((v : List α) : Multiset α) := by
  obtain ⟨k, w, h1, _, _, h4, _⟩ :=
    partitionRun_correct useIntOpt doubleStore g1 g2 gInt v pivot f
  rw [h1]
  exact h4

/-- C3: when the comparison aborts partway through the scratch
double-write strategy on an in-contract range, the range is left
byte-for-byte identical to its pre-call state: the loop wrote only the
scratch buffer and the copy-back never ran. -/
theorem claim_C3_abort_restores (g : Nat → α) (doubleStore : Bool) (v : List α)
    (pivot : α) (less : α → α → Option Bool)
    (hlen : v.length < MAX_SMALL_PARTITION_LEN)
    (habort : (smallPartitionIntOpt g doubleStore v pivot less).1 = none) :
    (smallPartitionIntOpt g doubleStore v pivot less).2 = v :=
  smallPartitionIntOpt_abort g doubleStore v pivot less habort

/-- Witness for C3: a comparison that aborts immediately on the
one-element range `[0]` leaves it untouched. -/
theorem claim_C3_abort_restores_witness :
    ([(0 : Nat)] : List Nat).length < MAX_SMALL_PARTITION_LEN ∧
    (smallPartitionIntOpt (fun j => (0 : Nat)) true [0] 5 (fun a b => none)).1 =
      none ∧
    (smallPartitionIntOpt (fun j => (0 : Nat)) true [0] 5 (fun a b => none)).2 =
      [0] :=
  ⟨by decide,
   by simp [smallPartitionIntOpt, intPairs, intBody, MAX_SMALL_PARTITION_LEN],
   claim_C3_abort_restores (fun j => 0) true [0] 5 (fun a b => none) (by decide)
     (by simp [smallPartitionIntOpt, intPairs, intBody, MAX_SMALL_PARTITION_LEN])⟩

/-- C4 (code bug): a range at or above the 256 threshold passed to either
small-partition strategy is NOT rejected: in the modelled optimized build
the debug assertion is compiled out and both strategies silently return
count 0 with the sequence unchanged, instead of signalling a hard
contract violation. -/
theorem claim_C4_silent_fallback (g1 g2 : Nat → Nat) (gInt : Nat → α)
    (doubleStore : Bool) (v : List α) (pivot : α) (less : α → α → Option Bool)
    (hlen : MAX_SMALL_PARTITION_LEN ≤ v.length) :
    smallPartitionIntOpt gInt doubleStore v pivot less = (some 0, v) ∧
    smallPartitionMoveOpt g1 g2 v pivot less = (some (0, 0), v) := by
  constructor
  · simp only [smallPartitionIntOpt]
    rw [if_pos hlen]
  · simp only [smallPartitionMoveOpt]
    rw [if_pos hlen]

/-- Witness for C4: a length-256 range is silently returned unchanged
with count 0 by both strategies. -/
theorem claim_C4_silent_fallback_witness :
    MAX_SMALL_PARTITION_LEN ≤ (List.replicate 256 (0 : Nat)).length ∧
    (smallPartitionIntOpt (fun j => (0 : Nat)) true (List.replicate 256 0) 1
        (fun a b => some (decide (a < b))) =
      (some 0, List.replicate 256 0) ∧
    smallPartitionMoveOpt (fun j => 0) (fun j => 0) (List.replicate 256 (0 : Nat)) 1
        (fun a b => some (decide (a < b))) =
      (some (0, 0), List.replicate 256 0)) :=
  ⟨by rw [List.length_replicate]; decide,
   claim_C4_silent_fallback (fun j => 0) (fun j => 0) (fun j => 0) true
     (List.replicate 256 0) 1 (fun a b => some (decide (a < b)))
     (by rw [List.length_replicate]; decide)⟩

/-- C5 (code bug): the already-partitioned all-less boundary input `[0]`
with pivot `1` is NOT left alone: the stale `ge_idx[0] = len - 1` entry
passes the continue check, the cyclic loop runs one lap through aliased
pointers, and the minimal-move strategy reports 3 single-element copies
where the claim demands zero relocations (the count 1 itself is
correct). -/
theorem claim_C5_rerun_not_free (g1 g2 : Nat → Nat) :
    smallPartitionMoveOpt g1 g2 [(0 : Nat)] 1
        (pureLess (fun a b => decide (a < b))) = (some (1, 3), [0]) ∧
    (3 : Nat) ≠ 0 := by
  constructor
  · simp [smallPartitionMoveOpt, moveScan, moveScanStep, cyclicPermutationSwapLoop,
      passedFrom0, passedCount, cyclePath, pathRotate, chainCopy, bufSet, vget,
      pureLess, MAX_SMALL_PARTITION_LEN, List.range_succ]
  · decide

/-- C6: for every range of length at least 256 and every pure comparison,
the block partitioner terminates with a residual sub-range `[lo, hi)` of
the rewritten sequence, between its final cursors, of length strictly
below twice the block width. -/
theorem claim_C6_block_residual_bound (v : List α) (pivot : α) (f : α → α → Bool)
    (hlen : MAX_SMALL_PARTITION_LEN ≤ v.length) :
    ∃ w lo hi, blockPartition v pivot (pureLess f) = .ok w lo hi ∧
      w.length = v.length ∧ lo ≤ hi ∧ hi ≤ v.length ∧ hi - lo < 2 * BLOCK := by
  obtain ⟨w, lo, hi, h1, h2, _, h4, h5, h6, _, _⟩ :=
    blockPartition_pure f pivot v hlen
  exact ⟨w, lo, hi, h1, h2, h4, h5, h6⟩

/-- Witness for C6 at a concrete length-256 input. -/
theorem claim_C6_block_residual_bound_witness :
    MAX_SMALL_PARTITION_LEN ≤ (List.replicate 256 (0 : Nat)).length ∧
    (∃ w lo hi, blockPartition (List.replicate 256 (0 : Nat)) 1
        (pureLess (fun a b => decide (a < b))) = .ok w lo hi ∧
      w.length = (List.replicate 256 (0 : Nat)).length ∧ lo ≤ hi ∧
      hi ≤ (List.replicate 256 (0 : Nat)).length ∧ hi - lo < 2 * BLOCK) :=
  ⟨by rw [List.length_replicate]; decide,
   claim_C6_block_residual_bound (List.replicate 256 0) 1
     (fun a b => decide (a < b)) (by rw [List.length_replicate]; decide)⟩

/-- C7 counterexample: the claimed block-boundary scenario fails on the
length-64 alternating sequence: block_partition returns every input
shorter than 256 whole, so the residual has length 64, not 0 — the
sequence never reaches the block loop. -/
theorem claim_C7_counterexample :
    blockPartition ((List.range 64).map (fun i => i % 2)) 1
        (pureLess (fun a b : Nat => decide (a < b))) =
      .ok ((List.range 64).map (fun i => i % 2)) 0 64 ∧
    64 - 0 ≠ 0 := by
  constructor
  · rfl
  · decide

/-- C7 (corrected): inputs below the 256 threshold bypass block
processing entirely and come back whole as the residual (so the length-64
alternating scenario yields residual length 64); the advertised
`< 2 × block width` residual bound holds exactly for the inputs the block
loop actually processes, those of length at least 256. -/
theorem claim_C7_corrected_residual (v : List α) (pivot : α) (f : α → α → Bool) :
    (v.length < MAX_SMALL_PARTITION_LEN →
      blockPartition v pivot (pureLess f) = .ok v 0 v.length) ∧
    (MAX_SMALL_PARTITION_LEN ≤ v.length →
      ∃ w lo hi, blockPartition v pivot (pureLess f) = .ok w lo hi ∧
        hi - lo < 2 * BLOCK) := by
  constructor
  · intro h
    simp only [blockPartition]
    rw [if_pos h]
  · intro h
    obtain ⟨w, lo, hi, h1, _, _, _, _, h6, _, _⟩ := blockPartition_pure f pivot v h
    exact ⟨w, lo, hi, h1, h6⟩

/-- Witness for C7 (corrected) at the length-64 alternating input. -/
theorem claim_C7_corrected_residual_witness :
    (((List.range 64).map (fun i => i % 2)).length < MAX_SMALL_PARTITION_LEN →
      blockPartition ((List.range 64).map (fun i => i % 2)) 1
          (pureLess (fun a b : Nat => decide (a < b))) =
        .ok ((List.range 64).map (fun i => i % 2)) 0
          ((List.range 64).map (fun i => i % 2)).length) ∧
    (MAX_SMALL_PARTITION_LEN ≤ ((List.range 64).map (fun i => i % 2)).length →
      ∃ w lo hi, blockPartition ((List.range 64).map (fun i => i % 2)) 1
          (pureLess (fun a b : Nat => decide (a < b))) = .ok w lo hi ∧
        hi - lo < 2 * BLOCK) :=
  claim_C7_corrected_residual ((List.range 64).map (fun i => i % 2)) 1
    (fun a b => decide (a < b))

/-- C8: when the continue check admits a nonzero count of loop
iterations, the cyclic primitive performs exactly `count + 1`
single-element copies, where `count` is the number of element positions
the two cursors jointly enumerate (the length of the interleaved position
cycle), and it relocates values exactly by rotating along that cycle. -/
theorem claim_C8_cyclic_copies (check : Nat → Bool) (left right : Nat → Nat)
    (bound : Nat) (v : List α)
    (hpass : passedFrom0 check bound ≠ 0)
    (hnoalias : (cyclePath left right (passedFrom0 check bound)).Nodup) :
    2 * passedFrom0 check bound = (cyclePath left right
        (passedFrom0 check bound)).length ∧
    (cyclicPermutationSwapLoop check left right bound v).2 =
      (cyclePath left right (passedFrom0 check bound)).length + 1 ∧
    (cyclicPermutationSwapLoop check left right bound v).1 =
      pathRotate v (cyclePath left right (passedFrom0 check bound)) := by
  refine ⟨(cyclePath_length _ _ _).symm, ?_, cyclicLoop_fst_eq v hpass⟩
  rw [cyclicLoop_moves v hpass, cyclePath_length]

/-- Witness for C8: one passing iteration over positions 0 and 1 of a
two-element sequence gives 2 enumerated positions and 3 copies. -/
theorem claim_C8_cyclic_copies_witness :
    passedFrom0 (fun i => decide (i < 1)) 1 ≠ 0 ∧
    (cyclePath (fun i => i) (fun i => i + 1)
      (passedFrom0 (fun i => decide (i < 1)) 1)).Nodup ∧
    ((cyclicPermutationSwapLoop (fun i => decide (i < 1)) (fun i => i)
        (fun i => i + 1) 1 [(10 : Nat), 20]).2 =
      (cyclePath (fun i => i) (fun i => i + 1)
        (passedFrom0 (fun i => decide (i < 1)) 1)).length + 1) :=
  ⟨by decide, by decide,
   (claim_C8_cyclic_copies (fun i => decide (i < 1)) (fun i => i) (fun i => i + 1)
     1 [(10 : Nat), 20] (by decide) (by decide)).2.1⟩

/-- C9 (code bug): on the in-contract input `[0, 0]` with pivot `1`
(no greater-or-equal element) the scan leaves `ge_count = 0` while the
stale store puts index 1 into `ge_idx[0]` and index 1 is also what the
right cursor reads from the lt buffer, so the first cyclic-loop iteration
produces aliased left and right element pointers; moreover the continue
check for `i = 1` reads the never-initialized `ge_idx[1]`, and two
different garbage contents give two different results — an uninitialized
read observable in the move count. -/
theorem claim_C9_alias_and_uninit_read :
    (∀ g1 g2 : Nat → Nat,
      (moveScan g1 g2 [(0 : Nat), 0] 1 (pureLess (fun a b => decide (a < b))) 2).map
        (fun st => (st.geCount, st.geBuf 0, st.ltBuf (st.geCount + 0))) =
      some (0, 1, 1)) ∧
    smallPartitionMoveOpt (fun j => 0) (fun j => 0) [(0 : Nat), 0] 1
        (pureLess (fun a b => decide (a < b))) ≠
      smallPartitionMoveOpt (fun j => 2) (fun j => 0) [(0 : Nat), 0] 1
        (pureLess (fun a b => decide (a < b))) := by
  constructor
  · intro g1 g2
    rfl
  · decide

/-- C10: the engine never writes through the pivot: for a pivot stored on
the heap beside the sequence (the no-alias precondition `n ≤ p`), after
any call — normal or aborting, any strategy, any comparison — the heap
cell holding the pivot is unchanged. -/
theorem claim_C10_pivot_never_written (useIntOpt doubleStore : Bool)
    (g1 g2 : Nat → Nat) (gInt : Nat → α) (h : List α) (n p : Nat)
    (less : α → α → Option Bool) (hn : n ≤ p) (hp : p < h.length) :
    vget (partitionOnHeap useIntOpt doubleStore g1 g2 gInt h n p less).2 p =
      vget h p := by
  simp only [partitionOnHeap]
  have hlen := partitionRun_snd_length useIntOpt doubleStore g1 g2 gInt
    (h.take n) (vget h p) less
  have htk : (h.take n).length = n := by
    rw [List.length_take]
    omega
  rw [vget_append_right _ (by omega), hlen, htk, vget_drop,
    show n + (p - n) = p from by omega]

/-- Witness for C10: the pivot in heap slot 2 beside the two-element
sequence prefix is untouched. -/
theorem claim_C10_pivot_never_written_witness :
    (2 : Nat) ≤ 2 ∧ (2 : Nat) < ([5, 6, 7] : List Nat).length ∧
    vget (partitionOnHeap false false (fun j => 0) (fun j => 0) (fun j => 0)
      [(5 : Nat), 6, 7] 2 2 (pureLess (fun a b => decide (a < b)))).2 2 =
      vget [(5 : Nat), 6, 7] 2 :=
  ⟨le_refl 2, by decide,
   claim_C10_pivot_never_written false false (fun j => 0) (fun j => 0)
     (fun j => 0) [5, 6, 7] 2 2 (pureLess (fun a b => decide (a < b)))
     (le_refl 2) (by decide)⟩

end Claims

end Butterfly
